import Mathlib

/-!
Verification of the string tokenizer operator
(`src/onnxruntime/contrib_ops/cpu/tokenizer.cc`).

Strings are modelled as lists of natural numbers: a `BStr` is a byte string
(`std::string`, each element < 256) and a `WStr` is a wide string
(`std::wstring`, each element a Unicode scalar value).  Fallible code
returns `Except Err` mirroring the `Status` returns of the source.
-/

set_option maxHeartbeats 1000000

abbrev BStr : Type := List Nat

abbrev WStr : Type := List Nat

/-- Error taxonomy of `Tokenizer`.  The source reports every failure as an
`INVALID_ARGUMENT` status whose message determines the kind; the constructors
record the distinct messages of `tokenizer.cc`, with the offending string kept
as a payload where the source concatenates it into the message. -/
inductive Err where
  /-- "requires at least one separator" (line 356) -/
  | noSeparators
  /-- "mincharnum is too big for char level tokenezation" (line 366) -/
  | mincharTooBig
  /-- shape/rank validation failures (lines 378-400) -/
  | badShape
  /-- "No empty separators allowed" (line 252) -/
  | emptySeparator
  /-- "Separator strings contains invalid utf8 chars: " + sep (line 256) -/
  | invalidSepUtf8 (offending : BStr)
  /-- "Input string contains invalid utf8 chars: " + s (line 183) and
  "Invalid utf8 chars in the input: " + s (line 278) -/
  | invalidUtf8 (offending : BStr)
deriving DecidableEq

/-- `TernarySearchTree` nodes (lines 44-59): a node holds one character `c_`,
an optional value (`has_val_`/`value_`, here `Option Nat` since the stored
`ValueType` is the pattern's length `w_len`), and `left_`/`mid_`/`right_`
children.  `TTree.nil` plays the role of a null `unique_ptr`. -/
inductive TTree where
  | nil : TTree
  | node (c : Nat) (val : Option Nat) (l m r : TTree) : TTree
deriving DecidableEq

/-- `TernarySearchTree::get(node, str, len, depth)` (lines 102-120), with the
remaining suffix `str.drop depth` passed directly (the source reads only
`str[depth...]`, asserting `depth < len`).  `depth < len - 1` becomes
"the suffix has more than one character".  Returns the reached node's
`val` field, or `none` for a null-node search miss. -/
def gett : TTree → WStr → Option (Option Nat)
  | TTree.nil, _ => none
  | TTree.node nc val l m r, s =>
    if s.headD 0 < nc then gett l s
    else if nc < s.headD 0 then gett r s
    else
      match s, m with
      | _ :: s2 :: rest, TTree.node mc mval ml mm mr =>
          gett (TTree.node mc mval ml mm mr) (s2 :: rest)
      | _, _ => some val

/-- `TernarySearchTree::get(str, len)` (lines 72-81): empty queries and
nodes without a value are search misses. -/
def TST.get (t : TTree) (s : WStr) : Option Nat :=
  if s.length = 0 then none
  else
    match gett t s with
    | none => none
    | some val => val

/-- The chain of fresh nodes that `TernarySearchTree::put` (lines 122-162)
builds when inserting the remaining suffix of a pattern below a null link:
each recursive call with `node == nullptr` allocates `Node(c)` and, since
`c == n->c_` for the fresh node, continues into the middle child until the
last character, whose node carries the value. -/
def freshChain (v : Nat) : WStr → TTree
  | [] => TTree.nil
  | [c] => TTree.node c (some v) TTree.nil TTree.nil TTree.nil
  | c :: c2 :: rest => TTree.node c none TTree.nil (freshChain v (c2 :: rest)) TTree.nil

/-- `TernarySearchTree::put(node, str, len, v, depth)` (lines 122-162) on the
remaining suffix.  Returns the updated subtree root, or `none` when the
insertion failed (duplicate pattern: terminal node already `has_val_`). -/
def putt (v : Nat) : TTree → WStr → Option TTree
  | TTree.nil, [] => none
  | TTree.nil, c :: rest => some (freshChain v (c :: rest))
  | TTree.node nc val l m r, s =>
    if s.headD 0 < nc then (putt v l s).map fun l2 => TTree.node nc val l2 m r
    else if nc < s.headD 0 then (putt v r s).map fun r2 => TTree.node nc val l m r2
    else
      match s with
      | _ :: s2 :: rest => (putt v m (s2 :: rest)).map fun m2 => TTree.node nc val l m2 r
      | _ =>
        match val with
        | none => some (TTree.node nc (some v) l m r)
        | some _ => none

/-- `TernarySearchTree::put(str, len, v)` (lines 87-99): rejects empty
patterns; on failure (duplicate) the tree is left unchanged. -/
def TST.put (t : TTree) (s : WStr) (v : Nat) : TTree :=
  if s.length < 1 then t
  else
    match putt v t s with
    | some t2 => t2
    | none => t

/-- The tree built by the separator loop (lines 249-260): each separator is
inserted with its own length as the stored value, in order. -/
def buildTree (seps : List WStr) : TTree :=
  seps.foldl (fun t s => TST.put t s s.length) TTree.nil

/-- Exact-match lookup in a ternary search tree: the value stored at the
terminal node of precisely this key, if any.  Specification-side helper used
to state what `put` inserted; not part of the source. -/
def lookupT : TTree → WStr → Option Nat
  | TTree.nil, _ => none
  | TTree.node nc val l m r, s =>
    if s.headD 0 < nc then lookupT l s
    else if nc < s.headD 0 then lookupT r s
    else
      match s with
      | _ :: s2 :: rest => lookupT m (s2 :: rest)
      | _ => val

/-- Every value stored in the tree is the length of its own key
(what the separator loop stores: `{wsep.length()}`). -/
def storesLengths (t : TTree) : Prop :=
  ∀ s : WStr, s ≠ [] → ∀ v, lookupT t s = some v → v = s.length

/-- All stored values are positive (pattern lengths of nonempty patterns). -/
def TTree.valsPosB : TTree → Bool
  | TTree.nil => true
  | TTree.node _ val l m r =>
    (match val with
     | none => true
     | some v => decide (1 ≤ v)) && l.valsPosB && m.valsPosB && r.valsPosB

/-- The separator scan loop of `Tokenizer::SeparatorTokenize` (lines 281-305),
with an explicit fuel argument for structural recursion; `scanAux` below
supplies `rest.length`, which suffices since every iteration consumes at
least one character.  `pending` is the span between `last_mismatch` and `ws`
(the loop's cursor), `rest` the remaining characters at `ws`.  On a match of
length `wlen`, the span is emitted when its length exceeds `mincharnum_`
(line 288, strict `>`), and the cursor advances by `wlen`; since stored
values are lengths of nonempty patterns, `wlen ≥ 1` and advancing by `wlen`
over `ch :: rest` leaves `rest.drop (wlen - 1)`.  On a miss the cursor
advances one character and the span grows.  The trailing span left when the
loop ends is emitted unconditionally (lines 302-305). -/
def scanAuxF (t : TTree) (minc : Nat) : Nat → WStr → WStr → List WStr
  | _, pending, [] => if pending.isEmpty then [] else [pending]
  | 0, _, _ :: _ => []
  | fuel + 1, pending, ch :: rest =>
    match TST.get t (ch :: rest) with
    | some wlen =>
        (if minc < pending.length then [pending] else []) ++
          scanAuxF t minc fuel [] (rest.drop (wlen - 1))
    | none => scanAuxF t minc fuel (pending ++ [ch]) rest

/-- The separator scan (lines 281-305): tokens of one decoded cell string. -/
def scanAux (t : TTree) (minc : Nat) (pending rest : WStr) : List WStr :=
  scanAuxF t minc rest.length pending rest

/-- One piece of the decomposition that the separator scan induces on its
input: an emitted span, a span dropped by the `mincharnum_` filter, or a
matched separator occurrence.  Specification-side instrumentation of the
scan, used to state reconstruction properties; not part of the source. -/
inductive Piece where
  | tok (s : WStr)
  | dropped (s : WStr)
  | sep (s : WStr)
deriving DecidableEq

/-- The characters of the input that a piece covers. -/
def Piece.content : Piece → WStr
  | Piece.tok s => s
  | Piece.dropped s => s
  | Piece.sep s => s

/-- The emitted token of a piece, if it is one. -/
def Piece.tok? : Piece → Option WStr
  | Piece.tok s => some s
  | _ => none

/-- Whether the piece is a span dropped by the `mincharnum_` filter. -/
def Piece.isDropped : Piece → Bool
  | Piece.dropped _ => true
  | _ => false

/-- Instrumented mirror of `scanAuxF`: same traversal, but recording every
span (emitted or dropped) and every matched separator occurrence in order. -/
def scanPiecesF (t : TTree) (minc : Nat) : Nat → WStr → WStr → List Piece
  | _, pending, [] => if pending.isEmpty then [] else [Piece.tok pending]
  | 0, _, _ :: _ => []
  | fuel + 1, pending, ch :: rest =>
    match TST.get t (ch :: rest) with
    | some wlen =>
        (if minc < pending.length then Piece.tok pending else Piece.dropped pending) ::
          Piece.sep ((ch :: rest).take wlen) ::
          scanPiecesF t minc fuel [] (rest.drop (wlen - 1))
    | none => scanPiecesF t minc fuel (pending ++ [ch]) rest

/-- Instrumented separator scan at full fuel. -/
def scanPieces (t : TTree) (minc : Nat) (pending rest : WStr) : List Piece :=
  scanPiecesF t minc rest.length pending rest

/-- ASCII codes of the `start_text`/`end_text` marker characters
(lines 29-30): STX = 0x2 and ETX = 0x3. -/
def start_text : Nat := 2

/-- See `start_text`. -/
def end_text : Nat := 3

/-- Modelled from the spec: the Text Codec Adapter of §4.1 stands for
`utf8_util.h`, which is not under src/.  `codePointByteLength(firstByte)`,
the 1..4 UTF-8 sequence length determined by a leading byte (`utf8_bytes`
in the source).  Bytes that cannot lead a valid sequence never reach this
function on validated input; they map to 1. -/
def utf8_bytes (b : Nat) : Nat :=
  if b < 0xC0 then 1
  else if b < 0xE0 then 2
  else if b < 0xF0 then 3
  else 4

/-- Whether a byte is a UTF-8 continuation byte (0x80..0xBF). -/
def utf8_cont (b : Nat) : Bool := decide (0x80 ≤ b) && decide (b < 0xC0)

/-- Guard against overlong and surrogate three-byte sequences. -/
def utf83_ok (b b1 : Nat) : Bool :=
  decide (b ≠ 0xE0 ∨ 0xA0 ≤ b1) && decide (b ≠ 0xED ∨ b1 < 0xA0)

/-- Guard against overlong and out-of-range four-byte sequences. -/
def utf84_ok (b b1 : Nat) : Bool :=
  decide (b ≠ 0xF0 ∨ 0x90 ≤ b1) && decide (b ≠ 0xF4 ∨ b1 < 0x90)

/-- Modelled from the spec: the Text Codec Adapter of §4.1 stands for
`utf8_util.h` and the `std::wstring_convert` facet, which are not under
src/.  Decoding of a single UTF-8 sequence: given the byte string, returns
the Unicode scalar value of its first code point and the remaining bytes,
or `none` for a truncated, overlong, surrogate or out-of-range sequence. -/
def decode1 : BStr → Option (Nat × BStr)
  | [] => none
  | b :: rest =>
    if b < 0x80 then some (b, rest)
    else if b < 0xC2 then none
    else if b < 0xE0 then
      match rest with
      | b1 :: rest1 =>
        if utf8_cont b1 then some ((b - 0xC0) * 0x40 + (b1 - 0x80), rest1)
        else none
      | [] => none
    else if b < 0xF0 then
      match rest with
      | b1 :: b2 :: rest2 =>
        if utf8_cont b1 && utf8_cont b2 && utf83_ok b b1 then
          some ((b - 0xE0) * 0x1000 + (b1 - 0x80) * 0x40 + (b2 - 0x80), rest2)
        else none
      | _ => none
    else if b < 0xF5 then
      match rest with
      | b1 :: b2 :: b3 :: rest3 =>
        if utf8_cont b1 && utf8_cont b2 && utf8_cont b3 && utf84_ok b b1 then
          some ((b - 0xF0) * 0x40000 + (b1 - 0x80) * 0x1000 +
            (b2 - 0x80) * 0x40 + (b3 - 0x80), rest3)
        else none
      | _ => none
    else none

/-- `decode(bytes) -> (codeUnits, ok)` of §4.1: decode every code point in
turn (fuel variant; each step consumes at least one byte, so fuel
`s.length` suffices). -/
def utf8_decodeF : Nat → BStr → Option WStr
  | _, [] => some []
  | 0, _ :: _ => none
  | fuel + 1, b :: rest =>
    match decode1 (b :: rest) with
    | none => none
    | some (c, rest2) => (utf8_decodeF fuel rest2).map fun w => c :: w

/-- See `utf8_decodeF`. -/
def utf8_decode (s : BStr) : Option WStr := utf8_decodeF s.length s

/-- Modelled from the spec: `isValidUtf8(bytes) -> (valid, codePointCount)`
(`utf8_validate` in the source, not under src/), specified in §4.1 to agree
with `decode`: valid iff decoding succeeds, with the code point count. -/
def utf8_validate (s : BStr) : Option Nat :=
  (utf8_decode s).map List.length

/-- Modelled from the spec: `encode(codeUnits) -> bytes` for a single scalar
value — standard UTF-8 encoding, total and lossless on decoded values. -/
def utf8_encode_char (c : Nat) : BStr :=
  if c < 0x80 then [c]
  else if c < 0x800 then [0xC0 + c / 0x40, 0x80 + c % 0x40]
  else if c < 0x10000 then
    [0xE0 + c / 0x1000, 0x80 + (c / 0x40) % 0x40, 0x80 + c % 0x40]
  else
    [0xF0 + c / 0x40000, 0x80 + (c / 0x1000) % 0x40, 0x80 + (c / 0x40) % 0x40, 0x80 + c % 0x40]

/-- `converter.to_bytes` (lines 334): encode a wide token back to UTF-8. -/
def to_bytes (w : WStr) : BStr :=
  (w.map utf8_encode_char).flatten

/-- The `conv_error` sentinel byte string "Conversion Error" (line 32). -/
def conv_error : BStr :=
  [67, 111, 110, 118, 101, 114, 115, 105, 111, 110, 32, 69, 114, 114, 111, 114]

/-- The `wconv_error` sentinel wide string L"Conversion Error" (line 33). -/
def wconv_error : WStr :=
  [67, 111, 110, 118, 101, 114, 115, 105, 111, 110, 32, 69, 114, 114, 111, 114]

/-- `converter.from_bytes` with the converter of line 248: constructed with
`(conv_error, wconv_error)`, so a failed conversion returns the
`wconv_error` sentinel instead of throwing. -/
def from_bytes (s : BStr) : WStr :=
  match utf8_decode s with
  | some w => w
  | none => wconv_error

/-- The per-code-point loop of `Tokenizer::CharTokenize` (lines 207-216),
fuel variant (structural recursion on fuel = byte length; each step consumes
`tlen = utf8_bytes (first byte) ≥ 1` bytes): extracts
`s->substr(token_idx, tlen)` for each code point in order. -/
def charTokensF : Nat → BStr → List BStr
  | _, [] => []
  | 0, _ :: _ => []
  | fuel + 1, b :: rest =>
    (b :: rest).take (utf8_bytes b) :: charTokensF fuel (rest.drop (utf8_bytes b - 1))

/-- The code-point tokens of one cell in character mode (lines 207-216). -/
def charTokens (s : BStr) : List BStr :=
  charTokensF s.length s

/-- First pass of `Tokenizer::CharTokenize` (lines 174-191): validate every
cell, count its code points, add 2 when `mark_` is set, and take the maximum
over all cells.  The first invalid cell aborts with the error of line 183. -/
def charPass1 (mark : Bool) : List BStr → Except Err Nat
  | [] => Except.ok 0
  | s :: rest =>
    match utf8_validate s with
    | none => Except.error (Err.invalidUtf8 s)
    | some tokens =>
      let cellTokens := tokens + (if mark then 2 else 0)
      match charPass1 mark rest with
      | Except.error e => Except.error e
      | Except.ok m => Except.ok (max cellTokens m)

/-- The per-cell output segment written by the second pass of
`Tokenizer::CharTokenize` (lines 200-228): optional start marker, one token
per code point, `max_tokens - mark_*2 - tokens` copies of `padvalue_`,
optional end marker.  The source writes cells consecutively into the flat
row-major output buffer, so the grid is the concatenation of these
segments, each of length `max_tokens`. -/
def charRow (mark : Bool) (pad : BStr) (maxT : Nat) (s : BStr) : List BStr :=
  (if mark then [[start_text]] else []) ++ charTokens s ++
    List.replicate (maxT - (if mark then 2 else 0) - (charTokens s).length) pad ++
    (if mark then [[end_text]] else [])

/-- `Tokenizer::CharTokenize` (lines 168-231) on the flat list of cells:
returns the trailing output dimension `max_tokens` and the per-cell rows. -/
def charTokenize (mark : Bool) (pad : BStr) (input : List BStr) :
    Except Err (Nat × List (List BStr)) :=
  match charPass1 mark input with
  | Except.error e => Except.error e
  | Except.ok maxT => Except.ok (maxT, input.map (charRow mark pad maxT))

/-- The separator-loading loop of `Tokenizer::SeparatorTokenize`
(lines 247-260): decode each separator, reject empty ones and ones whose
decoding hits the `wconv_error` sentinel, and insert each into the ternary
search tree with its length as value. -/
def buildSepTreeAux (t : TTree) : List BStr → Except Err TTree
  | [] => Except.ok t
  | sep :: rest =>
    let wsep := from_bytes sep
    if wsep.isEmpty then Except.error Err.emptySeparator
    else if wsep = wconv_error then Except.error (Err.invalidSepUtf8 sep)
    else buildSepTreeAux (TST.put t wsep wsep.length) rest

/-- The separator tree built from the configured separators (lines 247-260). -/
def buildSepTree (seps : List BStr) : Except Err TTree :=
  buildSepTreeAux TTree.nil seps

/-- First pass of `Tokenizer::SeparatorTokenize` (lines 264-313): decode and
scan every cell, collecting its tokens, and track the maximum of
(token count + 2 if `mark_`) over all cells.  A cell whose decoding yields
the `wconv_error` sentinel aborts with the error of line 278. -/
def sepPass1 (t : TTree) (minc : Nat) (mark : Bool) :
    List BStr → Except Err (Nat × List (List WStr))
  | [] => Except.ok (0, [])
  | s :: rest =>
    let w := from_bytes s
    if w = wconv_error then Except.error (Err.invalidUtf8 s)
    else
      let row := scanAux t minc [] w
      let cellTokens := row.length + (if mark then 2 else 0)
      match sepPass1 t minc mark rest with
      | Except.error e => Except.error e
      | Except.ok (m, rows) => Except.ok (max cellTokens m, row :: rows)

/-- The per-cell output segment written by the output loop of
`Tokenizer::SeparatorTokenize` (lines 324-348): optional start marker, the
cell's tokens re-encoded to UTF-8, `max_tokens - mark_*2 - row.size()`
copies of `padvalue_`, optional end marker. -/
def sepRow (mark : Bool) (pad : BStr) (maxT : Nat) (row : List WStr) : List BStr :=
  (if mark then [[start_text]] else []) ++ row.map to_bytes ++
    List.replicate (maxT - (if mark then 2 else 0) - row.length) pad ++
    (if mark then [[end_text]] else [])

/-- `Tokenizer::SeparatorTokenize` (lines 233-350) on the flat list of
cells: build the separator tree, scan all cells, and lay out the rows. -/
def sepTokenize (mark : Bool) (pad : BStr) (minc : Nat) (seps : List BStr)
    (input : List BStr) : Except Err (Nat × List (List BStr)) :=
  match buildSepTree seps with
  | Except.error e => Except.error e
  | Except.ok t =>
    match sepPass1 t minc mark input with
    | Except.error e => Except.error e
    | Except.ok (maxT, rows) => Except.ok (maxT, rows.map (sepRow mark pad maxT))

/-- The shape validation of `Tokenizer::Compute` (lines 377-401): rank 1 or
2, all dimensions at least 1. -/
def checkDims (dims : List Int) : Bool :=
  match dims with
  | [c] => decide (1 ≤ c)
  | [n, c] => decide (1 ≤ n) && decide (1 ≤ c)
  | _ => false

/-- `Tokenizer::Compute` (lines 352-411) over the flat row-major cell list:
configuration and shape validation, then dispatch to character-level
tokenization (exactly one separator, the empty string) or separator
tokenization.  Returns the output dimensions (input dimensions plus the
trailing `max_tokens`) and the per-cell rows. -/
def compute (mark : Bool) (pad : BStr) (minc : Nat) (seps : List BStr)
    (dims : List Int) (input : List BStr) :
    Except Err (List Int × List (List BStr)) :=
  if seps.isEmpty then Except.error Err.noSeparators
  else if seps = [[]] ∧ 1 < minc then Except.error Err.mincharTooBig
  else if checkDims dims = false then Except.error Err.badShape
  else if seps = [[]] then
    match charTokenize mark pad input with
    | Except.error e => Except.error e
    | Except.ok (maxT, rows) => Except.ok (dims ++ [(maxT : Int)], rows)
  else
    match sepTokenize mark pad minc seps input with
    | Except.error e => Except.error e
    | Except.ok (maxT, rows) => Except.ok (dims ++ [(maxT : Int)], rows)


/-! ### Ternary search tree: stored values are positive pattern lengths -/

theorem valsPosB_node {nc : Nat} {val : Option Nat} {l m r : TTree}
    (h : (TTree.node nc val l m r).valsPosB = true) :
    (∀ v, val = some v → 1 ≤ v) ∧ l.valsPosB = true ∧ m.valsPosB = true ∧
      r.valsPosB = true := by
  simp only [TTree.valsPosB, Bool.and_eq_true] at h
  obtain ⟨⟨⟨h1, h2⟩, h3⟩, h4⟩ := h
  refine ⟨?_, h2, h3, h4⟩
  intro v hv
  subst hv
  simpa using h1

theorem valsPosB_node_mk {nc : Nat} {val : Option Nat} {l m r : TTree}
    (hval : ∀ v, val = some v → 1 ≤ v) (hl : l.valsPosB = true)
    (hm : m.valsPosB = true) (hr : r.valsPosB = true) :
    (TTree.node nc val l m r).valsPosB = true := by
  simp only [TTree.valsPosB, Bool.and_eq_true]
  refine ⟨⟨⟨?_, hl⟩, hm⟩, hr⟩
  cases val with
  | none => rfl
  | some v => simpa using hval v rfl

theorem valsPosB_freshChain (v : Nat) (hv : 1 ≤ v) :
    ∀ s : WStr, (freshChain v s).valsPosB = true
  | [] => by simp [freshChain, TTree.valsPosB]
  | [c] => by
    refine valsPosB_node_mk ?_ rfl rfl rfl
    intro w hw
    cases hw
    exact hv
  | c :: c2 :: rest => by
    refine valsPosB_node_mk ?_ rfl (valsPosB_freshChain v hv (c2 :: rest)) rfl
    intro w hw
    cases hw

theorem valsPosB_putt (v : Nat) (hv : 1 ≤ v) :
    ∀ (t : TTree) (q : WStr) (t' : TTree), putt v t q = some t' →
      t.valsPosB = true → t'.valsPosB = true
  | TTree.nil, [], t', h => by cases h
  | TTree.nil, c :: rest, t', h => by
    intro _
    cases h
    exact valsPosB_freshChain v hv (c :: rest)
  | TTree.node nc val l m r, q, t', h => by
    intro hpos
    obtain ⟨hval, hl, hm, hr⟩ := valsPosB_node hpos
    simp only [putt] at h
    split_ifs at h with h1 h2
    · obtain ⟨l2, hl2, rfl⟩ := Option.map_eq_some'.mp h
      exact valsPosB_node_mk hval (valsPosB_putt v hv l q l2 hl2 hl) hm hr
    · obtain ⟨r2, hr2, rfl⟩ := Option.map_eq_some'.mp h
      exact valsPosB_node_mk hval hl hm (valsPosB_putt v hv r q r2 hr2 hr)
    · split at h
      · obtain ⟨m2, hm2, rfl⟩ := Option.map_eq_some'.mp h
        exact valsPosB_node_mk hval hl (valsPosB_putt v hv m _ m2 hm2 hm) hr
      · split at h
        · cases h
          refine valsPosB_node_mk ?_ hl hm hr
          intro w hw
          cases hw
          exact hv
        · cases h

theorem valsPosB_put (t : TTree) (q : WStr) (hpos : t.valsPosB = true) :
    (TST.put t q q.length).valsPosB = true := by
  unfold TST.put
  split_ifs with h1
  · exact hpos
  · cases hput : putt q.length t q with
    | none => exact hpos
    | some t' =>
      have hv : 1 ≤ q.length := by omega
      exact valsPosB_putt q.length hv t q t' hput hpos

theorem valsPosB_build (seps : List WStr) : (buildTree seps).valsPosB = true := by
  suffices h : ∀ t : TTree, t.valsPosB = true →
      (seps.foldl (fun t s => TST.put t s s.length) t).valsPosB = true by
    exact h TTree.nil rfl
  induction seps with
  | nil => intro t ht; exact ht
  | cons q rest ih =>
    intro t ht
    exact ih (TST.put t q q.length) (valsPosB_put t q ht)

theorem gett_pos :
    ∀ (t : TTree) (s : WStr) (v : Nat), t.valsPosB = true →
      gett t s = some (some v) → 1 ≤ v
  | TTree.nil, s, v, _, h => by cases h
  | TTree.node nc val l m r, s, v, hpos, h => by
    obtain ⟨hval, hl, hm, hr⟩ := valsPosB_node hpos
    unfold gett at h
    split_ifs at h with h1 h2
    · exact gett_pos l s v hl h
    · exact gett_pos r s v hr h
    · split at h
      · exact gett_pos _ _ v hm h
      · cases h
        exact hval v rfl

theorem get_pos (t : TTree) (q : WStr) (v : Nat) (hpos : t.valsPosB = true)
    (h : TST.get t q = some v) : 1 ≤ v := by
  unfold TST.get at h
  split_ifs at h with h1
  cases hg : gett t q with
  | none =>
    rw [hg] at h
    have h2 : (none : Option Nat) = some v := h
    cases h2
  | some ov =>
    rw [hg] at h
    have h2 : ov = some v := h
    subst h2
    exact gett_pos t q v hpos hg

theorem get_pos_build (seps : List WStr) (q : WStr) (v : Nat)
    (h : TST.get (buildTree seps) q = some v) : 1 ≤ v :=
  get_pos (buildTree seps) q v (valsPosB_build seps) h

/-! ### Ternary search tree: what `put` inserts, in terms of `lookupT` -/

theorem lookupT_freshChain_self (v : Nat) :
    ∀ s : WStr, s ≠ [] → lookupT (freshChain v s) s = some v
  | [], h => absurd rfl h
  | [c], _ => by
    unfold freshChain lookupT
    simp
  | c :: c2 :: rest, _ => by
    have ih := lookupT_freshChain_self v (c2 :: rest) (by simp)
    unfold freshChain lookupT
    simp [ih]

theorem lookupT_freshChain_other (v : Nat) :
    ∀ q s : WStr, q ≠ [] → s ≠ [] → s ≠ q → lookupT (freshChain v q) s = none
  | [], _, hq, _, _ => absurd rfl hq
  | _ :: _, [], _, hs, _ => absurd rfl hs
  | [c], a :: s', _, _, hne => by
    unfold freshChain lookupT
    split_ifs with h1 h2
    · rfl
    · rfl
    · have hac : a = c := by simp only [List.headD_cons] at h1 h2; omega
      subst hac
      cases s' with
      | nil => exact absurd rfl hne
      | cons a2 srest => rfl
  | c :: c2 :: qrest, a :: s', _, _, hne => by
    unfold freshChain lookupT
    split_ifs with h1 h2
    · rfl
    · rfl
    · have hac : a = c := by simp only [List.headD_cons] at h1 h2; omega
      subst hac
      cases s' with
      | nil => rfl
      | cons a2 srest =>
        have hne2 : a2 :: srest ≠ c2 :: qrest := by
          intro hcontra
          exact hne (by rw [hcontra])
        exact lookupT_freshChain_other v (c2 :: qrest) (a2 :: srest)
          (by simp) (by simp) hne2

theorem lookupT_node_one (nc : Nat) (val : Option Nat) (l m r : TTree) (a : Nat) :
    lookupT (TTree.node nc val l m r) [a] =
      if a < nc then lookupT l [a] else if nc < a then lookupT r [a] else val := rfl

theorem lookupT_node_two (nc : Nat) (val : Option Nat) (l m r : TTree)
    (a s2 : Nat) (rest : WStr) :
    lookupT (TTree.node nc val l m r) (a :: s2 :: rest) =
      if a < nc then lookupT l (a :: s2 :: rest)
      else if nc < a then lookupT r (a :: s2 :: rest)
      else lookupT m (s2 :: rest) := rfl

theorem putt_node_one (v nc : Nat) (val : Option Nat) (l m r : TTree) (a : Nat) :
    putt v (TTree.node nc val l m r) [a] =
      if a < nc then (putt v l [a]).map fun l2 => TTree.node nc val l2 m r
      else if nc < a then (putt v r [a]).map fun r2 => TTree.node nc val l m r2
      else
        match val with
        | none => some (TTree.node nc (some v) l m r)
        | some _ => none := rfl

theorem putt_node_two (v nc : Nat) (val : Option Nat) (l m r : TTree)
    (a s2 : Nat) (rest : WStr) :
    putt v (TTree.node nc val l m r) (a :: s2 :: rest) =
      if a < nc then (putt v l (a :: s2 :: rest)).map fun l2 => TTree.node nc val l2 m r
      else if nc < a then (putt v r (a :: s2 :: rest)).map fun r2 => TTree.node nc val l m r2
      else (putt v m (s2 :: rest)).map fun m2 => TTree.node nc val l m2 r := rfl

theorem gett_node_one (nc : Nat) (val : Option Nat) (l m r : TTree) (a : Nat) :
    gett (TTree.node nc val l m r) [a] =
      if a < nc then gett l [a] else if nc < a then gett r [a] else some val := rfl

theorem gett_node_two_nil (nc : Nat) (val : Option Nat) (l r : TTree)
    (a s2 : Nat) (rest : WStr) :
    gett (TTree.node nc val l TTree.nil r) (a :: s2 :: rest) =
      if a < nc then gett l (a :: s2 :: rest)
      else if nc < a then gett r (a :: s2 :: rest)
      else some val := rfl

theorem gett_node_two_node (nc : Nat) (val : Option Nat) (l r : TTree)
    (mc : Nat) (mval : Option Nat) (ml mm mr : TTree) (a s2 : Nat) (rest : WStr) :
    gett (TTree.node nc val l (TTree.node mc mval ml mm mr) r) (a :: s2 :: rest) =
      if a < nc then gett l (a :: s2 :: rest)
      else if nc < a then gett r (a :: s2 :: rest)
      else gett (TTree.node mc mval ml mm mr) (s2 :: rest) := rfl

theorem putt_establish (v : Nat) :
    ∀ (t : TTree) (q : WStr), q ≠ [] → lookupT t q = none →
      ∃ t', putt v t q = some t' ∧ lookupT t' q = some v
  | TTree.nil, [], hq, _ => absurd rfl hq
  | TTree.nil, c :: rest, _, _ => by
    refine ⟨freshChain v (c :: rest), rfl, ?_⟩
    exact lookupT_freshChain_self v (c :: rest) (by simp)
  | TTree.node nc val l m r, [], hq, _ => absurd rfl hq
  | TTree.node nc val l m r, [a], _, hlook => by
    rw [lookupT_node_one] at hlook
    split_ifs at hlook with h1 h2
    · obtain ⟨l2, hl2, hlook2⟩ := putt_establish v l [a] (by simp) hlook
      exact ⟨TTree.node nc val l2 m r,
        by rw [putt_node_one, if_pos h1, hl2]; rfl,
        by rw [lookupT_node_one, if_pos h1]; exact hlook2⟩
    · obtain ⟨r2, hr2, hlook2⟩ := putt_establish v r [a] (by simp) hlook
      exact ⟨TTree.node nc val l m r2,
        by rw [putt_node_one, if_neg h1, if_pos h2, hr2]; rfl,
        by rw [lookupT_node_one, if_neg h1, if_pos h2]; exact hlook2⟩
    · subst hlook
      exact ⟨TTree.node nc (some v) l m r,
        by rw [putt_node_one, if_neg h1, if_neg h2],
        by rw [lookupT_node_one, if_neg h1, if_neg h2]⟩
  | TTree.node nc val l m r, a :: s2 :: rest, _, hlook => by
    rw [lookupT_node_two] at hlook
    split_ifs at hlook with h1 h2
    · obtain ⟨l2, hl2, hlook2⟩ := putt_establish v l (a :: s2 :: rest) (by simp) hlook
      exact ⟨TTree.node nc val l2 m r,
        by rw [putt_node_two, if_pos h1, hl2]; rfl,
        by rw [lookupT_node_two, if_pos h1]; exact hlook2⟩
    · obtain ⟨r2, hr2, hlook2⟩ := putt_establish v r (a :: s2 :: rest) (by simp) hlook
      exact ⟨TTree.node nc val l m r2,
        by rw [putt_node_two, if_neg h1, if_pos h2, hr2]; rfl,
        by rw [lookupT_node_two, if_neg h1, if_pos h2]; exact hlook2⟩
    · obtain ⟨m2, hm2, hlook2⟩ := putt_establish v m (s2 :: rest) (by simp) hlook
      exact ⟨TTree.node nc val l m2 r,
        by rw [putt_node_two, if_neg h1, if_neg h2, hm2]; rfl,
        by rw [lookupT_node_two, if_neg h1, if_neg h2]; exact hlook2⟩

theorem putt_duplicate (v : Nat) :
    ∀ (t : TTree) (q : WStr) (w : Nat), q ≠ [] → lookupT t q = some w →
      putt v t q = none
  | TTree.nil, q, w, _, hlook => by
    rw [show lookupT TTree.nil q = none from rfl] at hlook
    cases hlook
  | TTree.node nc val l m r, [], w, hq, _ => absurd rfl hq
  | TTree.node nc val l m r, [a], w, _, hlook => by
    rw [lookupT_node_one] at hlook
    rw [putt_node_one]
    split_ifs at hlook ⊢ with h1 h2
    · rw [putt_duplicate v l [a] w (by simp) hlook]; rfl
    · rw [putt_duplicate v r [a] w (by simp) hlook]; rfl
    · subst hlook; rfl
  | TTree.node nc val l m r, a :: s2 :: rest, w, _, hlook => by
    rw [lookupT_node_two] at hlook
    rw [putt_node_two]
    split_ifs at hlook ⊢ with h1 h2
    · rw [putt_duplicate v l (a :: s2 :: rest) w (by simp) hlook]; rfl
    · rw [putt_duplicate v r (a :: s2 :: rest) w (by simp) hlook]; rfl
    · rw [putt_duplicate v m (s2 :: rest) w (by simp) hlook]; rfl

theorem putt_frame (v : Nat) :
    ∀ (t t' : TTree) (q s : WStr), q ≠ [] → s ≠ [] → s ≠ q →
      putt v t q = some t' → lookupT t' s = lookupT t s
  | TTree.nil, t', [], s, hq, _, _, _ => absurd rfl hq
  | TTree.nil, t', c :: qrest, s, _, hs, hne, hput => by
    cases hput
    rw [lookupT_freshChain_other v (c :: qrest) s (by simp) hs hne]
    rfl
  | TTree.node nc val l m r, t', [], s, hq, _, _, _ => absurd rfl hq
  | TTree.node nc val l m r, t', a :: q', [], _, hs, _, _ => absurd rfl hs
  | TTree.node nc val l m r, t', [a], b :: s', _, _, hne, hput => by
    rw [putt_node_one] at hput
    split_ifs at hput with h1 h2
    · obtain ⟨l2, hl2, rfl⟩ := Option.map_eq_some'.mp hput
      have hframe := putt_frame v l l2 [a] (b :: s') (by simp) (by simp) hne hl2
      cases s' with
      | nil =>
        rw [lookupT_node_one, lookupT_node_one]
        split_ifs <;> first | exact hframe | rfl
      | cons b2 srest =>
        rw [lookupT_node_two, lookupT_node_two]
        split_ifs <;> first | exact hframe | rfl
    · obtain ⟨r2, hr2, rfl⟩ := Option.map_eq_some'.mp hput
      have hframe := putt_frame v r r2 [a] (b :: s') (by simp) (by simp) hne hr2
      cases s' with
      | nil =>
        rw [lookupT_node_one, lookupT_node_one]
        split_ifs <;> first | exact hframe | rfl
      | cons b2 srest =>
        rw [lookupT_node_two, lookupT_node_two]
        split_ifs <;> first | exact hframe | rfl
    · cases hval : val with
      | some w => rw [hval] at hput; cases hput
      | none =>
        rw [hval] at hput
        have ht' : t' = TTree.node nc (some v) l m r := by
          have h3 : some (TTree.node nc (some v) l m r) = some t' := hput
          exact (Option.some.inj h3).symm
        subst ht'
        have hanc : a = nc := by omega
        subst hanc
        cases s' with
        | nil =>
          rw [lookupT_node_one, lookupT_node_one]
          split_ifs with g1 g2
          · rfl
          · rfl
          · have hba : b = a := by omega
            subst hba
            exact absurd rfl hne
        | cons b2 srest =>
          rw [lookupT_node_two, lookupT_node_two]
  | TTree.node nc val l m r, t', a :: q2 :: qrest, b :: s', _, _, hne, hput => by
    rw [putt_node_two] at hput
    split_ifs at hput with h1 h2
    · obtain ⟨l2, hl2, rfl⟩ := Option.map_eq_some'.mp hput
      have hframe := putt_frame v l l2 (a :: q2 :: qrest) (b :: s') (by simp) (by simp) hne hl2
      cases s' with
      | nil =>
        rw [lookupT_node_one, lookupT_node_one]
        split_ifs <;> first | exact hframe | rfl
      | cons b2 srest =>
        rw [lookupT_node_two, lookupT_node_two]
        split_ifs <;> first | exact hframe | rfl
    · obtain ⟨r2, hr2, rfl⟩ := Option.map_eq_some'.mp hput
      have hframe := putt_frame v r r2 (a :: q2 :: qrest) (b :: s') (by simp) (by simp) hne hr2
      cases s' with
      | nil =>
        rw [lookupT_node_one, lookupT_node_one]
        split_ifs <;> first | exact hframe | rfl
      | cons b2 srest =>
        rw [lookupT_node_two, lookupT_node_two]
        split_ifs <;> first | exact hframe | rfl
    · obtain ⟨m2, hm2, rfl⟩ := Option.map_eq_some'.mp hput
      have hanc : a = nc := by omega
      subst hanc
      cases s' with
      | nil =>
        rw [lookupT_node_one, lookupT_node_one]
      | cons b2 srest =>
        rw [lookupT_node_two, lookupT_node_two]
        split_ifs with g1 g2
        · rfl
        · rfl
        · have hba : b = a := by omega
          subst hba
          have hne2 : b2 :: srest ≠ q2 :: qrest := by
            intro hcontra
            exact hne (by rw [hcontra])
          exact putt_frame v m m2 (q2 :: qrest) (b2 :: srest) (by simp) (by simp) hne2 hm2

theorem lookupT_head_lt {a nc : Nat} (h1 : a < nc) (val : Option Nat)
    (l m r : TTree) (X : WStr) :
    lookupT (TTree.node nc val l m r) (a :: X) = lookupT l (a :: X) := by
  cases X with
  | nil => rw [lookupT_node_one, if_pos h1]
  | cons x X' => rw [lookupT_node_two, if_pos h1]

theorem lookupT_head_gt {a nc : Nat} (h1 : ¬a < nc) (h2 : nc < a)
    (val : Option Nat) (l m r : TTree) (X : WStr) :
    lookupT (TTree.node nc val l m r) (a :: X) = lookupT r (a :: X) := by
  cases X with
  | nil => rw [lookupT_node_one, if_neg h1, if_pos h2]
  | cons x X' => rw [lookupT_node_two, if_neg h1, if_pos h2]

theorem lookupT_head_eq_cons {a nc : Nat} (h1 : ¬a < nc) (h2 : ¬nc < a)
    (val : Option Nat) (l m r : TTree) (x : Nat) (X : WStr) :
    lookupT (TTree.node nc val l m r) (a :: x :: X) = lookupT m (x :: X) := by
  rw [lookupT_node_two, if_neg h1, if_neg h2]

theorem gett_of_lookupT :
    ∀ (t : TTree) (s : WStr) (v : Nat), s ≠ [] → lookupT t s = some v →
      gett t s = some (some v)
  | TTree.nil, s, v, _, hlook => by
    rw [show lookupT TTree.nil s = none from rfl] at hlook
    cases hlook
  | TTree.node nc val l m r, [], v, hs, _ => absurd rfl hs
  | TTree.node nc val l m r, [a], v, _, hlook => by
    rw [lookupT_node_one] at hlook
    rw [gett_node_one]
    split_ifs at hlook ⊢ with h1 h2
    · exact gett_of_lookupT l [a] v (by simp) hlook
    · exact gett_of_lookupT r [a] v (by simp) hlook
    · rw [hlook]
  | TTree.node nc val l m r, a :: s2 :: rest, v, _, hlook => by
    rw [lookupT_node_two] at hlook
    split_ifs at hlook with h1 h2
    · cases m with
      | nil =>
        rw [gett_node_two_nil, if_pos h1]
        exact gett_of_lookupT l (a :: s2 :: rest) v (by simp) hlook
      | node mc mval ml mm mr =>
        rw [gett_node_two_node, if_pos h1]
        exact gett_of_lookupT l (a :: s2 :: rest) v (by simp) hlook
    · cases m with
      | nil =>
        rw [gett_node_two_nil, if_neg h1, if_pos h2]
        exact gett_of_lookupT r (a :: s2 :: rest) v (by simp) hlook
      | node mc mval ml mm mr =>
        rw [gett_node_two_node, if_neg h1, if_pos h2]
        exact gett_of_lookupT r (a :: s2 :: rest) v (by simp) hlook
    · cases m with
      | nil =>
        rw [show lookupT TTree.nil (s2 :: rest) = none from rfl] at hlook
        cases hlook
      | node mc mval ml mm mr =>
        rw [gett_node_two_node, if_neg h1, if_neg h2]
        exact gett_of_lookupT (TTree.node mc mval ml mm mr) (s2 :: rest) v (by simp) hlook

theorem get_of_lookupT (t : TTree) (s : WStr) (v : Nat) (hs : s ≠ [])
    (hlook : lookupT t s = some v) : TST.get t s = some v := by
  unfold TST.get
  rw [if_neg (by simpa using hs), gett_of_lookupT t s v hs hlook]

theorem gett_sound :
    ∀ (t : TTree) (s : WStr) (ov : Option Nat), s ≠ [] → gett t s = some ov →
      ∃ d, 1 ≤ d ∧ d ≤ s.length ∧ lookupT t (s.take d) = ov ∧
        ∀ M, d < M → M ≤ s.length → lookupT t (s.take M) = none
  | TTree.nil, s, ov, _, h => by cases h
  | TTree.node nc val l m r, [], ov, hs, _ => absurd rfl hs
  | TTree.node nc val l m r, [a], ov, _, h => by
    rw [gett_node_one] at h
    split_ifs at h with h1 h2
    · obtain ⟨d, hd1, hd2, hd3, _⟩ := gett_sound l [a] ov (by simp) h
      simp only [List.length_cons, List.length_nil] at hd2
      have hd : d = 1 := by omega
      subst hd
      refine ⟨1, le_refl 1, by simp, ?_, ?_⟩
      · exact (lookupT_head_lt h1 val l m r []).trans hd3
      · intro M hM1 hM2
        simp only [List.length_cons, List.length_nil] at hM2
        omega
    · obtain ⟨d, hd1, hd2, hd3, _⟩ := gett_sound r [a] ov (by simp) h
      simp only [List.length_cons, List.length_nil] at hd2
      have hd : d = 1 := by omega
      subst hd
      refine ⟨1, le_refl 1, by simp, ?_, ?_⟩
      · exact (lookupT_head_gt h1 h2 val l m r []).trans hd3
      · intro M hM1 hM2
        simp only [List.length_cons, List.length_nil] at hM2
        omega
    · refine ⟨1, le_refl 1, by simp, ?_, ?_⟩
      · rw [show ([a] : WStr).take 1 = [a] from rfl, lookupT_node_one,
          if_neg h1, if_neg h2]
        exact Option.some.inj h
      · intro M hM1 hM2
        simp only [List.length_cons, List.length_nil] at hM2
        omega
  | TTree.node nc val l m r, a :: s2 :: rest, ov, _, h => by
    have hlr : ∀ u : TTree,
        (∃ d, 1 ≤ d ∧ d ≤ (a :: s2 :: rest).length ∧
          lookupT u ((a :: s2 :: rest).take d) = ov ∧
          ∀ M, d < M → M ≤ (a :: s2 :: rest).length →
            lookupT u ((a :: s2 :: rest).take M) = none) →
        (∀ X : WStr, lookupT (TTree.node nc val l m r) (a :: X) = lookupT u (a :: X)) →
        ∃ d, 1 ≤ d ∧ d ≤ (a :: s2 :: rest).length ∧
          lookupT (TTree.node nc val l m r) ((a :: s2 :: rest).take d) = ov ∧
          ∀ M, d < M → M ≤ (a :: s2 :: rest).length →
            lookupT (TTree.node nc val l m r) ((a :: s2 :: rest).take M) = none := by
      intro u hEx hred
      obtain ⟨d, hd1, hd2, hd3, hd4⟩ := hEx
      refine ⟨d, hd1, hd2, ?_, ?_⟩
      · obtain ⟨d', rfl⟩ : ∃ d', d = d' + 1 := ⟨d - 1, by omega⟩
        rw [List.take_succ_cons] at hd3 ⊢
        rw [hred]
        exact hd3
      · intro M hM1 hM2
        have hm4 := hd4 M hM1 hM2
        obtain ⟨M', rfl⟩ : ∃ M', M = M' + 1 := ⟨M - 1, by omega⟩
        rw [List.take_succ_cons] at hm4 ⊢
        rw [hred]
        exact hm4
    cases m with
    | nil =>
      rw [gett_node_two_nil] at h
      split_ifs at h with h1 h2
      · exact hlr l (gett_sound l (a :: s2 :: rest) ov (by simp) h)
          (fun X => lookupT_head_lt h1 val l TTree.nil r X)
      · exact hlr r (gett_sound r (a :: s2 :: rest) ov (by simp) h)
          (fun X => lookupT_head_gt h1 h2 val l TTree.nil r X)
      · refine ⟨1, le_refl 1, by simp, ?_, ?_⟩
        · rw [show (a :: s2 :: rest).take 1 = [a] from rfl, lookupT_node_one,
            if_neg h1, if_neg h2]
          exact Option.some.inj h
        · intro M hM1 hM2
          obtain ⟨M'', rfl⟩ : ∃ M'', M = M'' + 2 := ⟨M - 2, by omega⟩
          rw [List.take_succ_cons, List.take_succ_cons,
            lookupT_head_eq_cons h1 h2]
          rfl
    | node mc mval ml mm mr =>
      rw [gett_node_two_node] at h
      split_ifs at h with h1 h2
      · exact hlr l (gett_sound l (a :: s2 :: rest) ov (by simp) h)
          (fun X => lookupT_head_lt h1 val l (TTree.node mc mval ml mm mr) r X)
      · exact hlr r (gett_sound r (a :: s2 :: rest) ov (by simp) h)
          (fun X => lookupT_head_gt h1 h2 val l (TTree.node mc mval ml mm mr) r X)
      · obtain ⟨d, hd1, hd2, hd3, hd4⟩ :=
          gett_sound (TTree.node mc mval ml mm mr) (s2 :: rest) ov (by simp) h
        simp only [List.length_cons] at hd2
        refine ⟨d + 1, by omega, by simp only [List.length_cons]; omega, ?_, ?_⟩
        · obtain ⟨d', rfl⟩ : ∃ d', d = d' + 1 := ⟨d - 1, by omega⟩
          rw [List.take_succ_cons] at hd3
          rw [List.take_succ_cons, List.take_succ_cons,
            lookupT_head_eq_cons h1 h2]
          exact hd3
        · intro M hM1 hM2
          simp only [List.length_cons] at hM2
          obtain ⟨M'', rfl⟩ : ∃ M'', M = M'' + 2 := ⟨M - 2, by omega⟩
          have hm4 := hd4 (M'' + 1) (by omega) (by simp only [List.length_cons]; omega)
          rw [List.take_succ_cons] at hm4
          rw [List.take_succ_cons, List.take_succ_cons,
            lookupT_head_eq_cons h1 h2]
          exact hm4

/-! ### The tree built from the separator list -/

theorem storesLengths_nil : storesLengths TTree.nil := by
  intro s _ v hlook
  rw [show lookupT TTree.nil s = none from rfl] at hlook
  cases hlook

theorem storesLengths_put (t : TTree) (q : WStr) (h : storesLengths t) :
    storesLengths (TST.put t q q.length) := by
  unfold TST.put
  split_ifs with h1
  · exact h
  · have hq : q ≠ [] := by
      intro hcontra
      subst hcontra
      simp at h1
    cases hput : putt q.length t q with
    | none => exact h
    | some t' =>
      intro s hs v hlook
      by_cases hsq : s = q
      · subst hsq
        cases hlk : lookupT t s with
        | none =>
          obtain ⟨t'', hput2, hlook2⟩ := putt_establish s.length t s hs hlk
          rw [hput2] at hput
          cases hput
          rw [hlook2] at hlook
          exact (Option.some.inj hlook).symm
        | some w =>
          rw [putt_duplicate s.length t s w hs hlk] at hput
          cases hput
      · rw [putt_frame q.length t t' q s hq hs hsq hput] at hlook
        exact h s hs v hlook

theorem storesLengths_foldl (seps : List WStr) :
    ∀ t : TTree, storesLengths t →
      storesLengths (seps.foldl (fun t s => TST.put t s s.length) t) := by
  induction seps with
  | nil => intro t ht; exact ht
  | cons q rest ih =>
    intro t ht
    exact ih (TST.put t q q.length) (storesLengths_put t q ht)

theorem storesLengths_build (seps : List WStr) : storesLengths (buildTree seps) :=
  storesLengths_foldl seps TTree.nil storesLengths_nil

theorem lookupT_put_preserved (t : TTree) (q s : WStr) (v : Nat) (hs : s ≠ [])
    (hlook : lookupT t s = some v) : lookupT (TST.put t q q.length) s = some v := by
  unfold TST.put
  split_ifs with h1
  · exact hlook
  · have hq : q ≠ [] := by
      intro hcontra
      subst hcontra
      simp at h1
    cases hput : putt q.length t q with
    | none => exact hlook
    | some t' =>
      by_cases hsq : s = q
      · subst hsq
        rw [putt_duplicate s.length t s v hs hlook] at hput
        cases hput
      · rw [putt_frame q.length t t' q s hq hs hsq hput]
        exact hlook

theorem lookupT_foldl_preserved (seps : List WStr) :
    ∀ (t : TTree) (s : WStr) (v : Nat), s ≠ [] → lookupT t s = some v →
      lookupT (seps.foldl (fun t q => TST.put t q q.length) t) s = some v := by
  induction seps with
  | nil => intro t s v _ hlook; exact hlook
  | cons q rest ih =>
    intro t s v hs hlook
    exact ih (TST.put t q q.length) s v hs (lookupT_put_preserved t q s v hs hlook)

theorem lookupT_build_of_mem (seps : List WStr) :
    ∀ (t : TTree) (p : WStr), p ∈ seps → p ≠ [] → storesLengths t →
      lookupT (seps.foldl (fun t q => TST.put t q q.length) t) p = some p.length := by
  induction seps with
  | nil => intro t p hp _ _; cases hp
  | cons q rest ih =>
    intro t p hp hpne hst
    rcases List.mem_cons.mp hp with hpq | hprest
    · subst hpq
      refine lookupT_foldl_preserved rest (TST.put t p p.length) p p.length hpne ?_
      unfold TST.put
      split_ifs with h1
      · exact absurd (by omega : p.length = 0) (by simpa using hpne)
      · cases hlk : lookupT t p with
        | none =>
          obtain ⟨t'', hput2, hlook2⟩ := putt_establish p.length t p hpne hlk
          rw [hput2, hlook2]
        | some w =>
          rw [putt_duplicate p.length t p w hpne hlk, hlk,
            hst p hpne w hlk]
    · exact ih (TST.put t q q.length) p hprest hpne (storesLengths_put t q hst)

theorem mem_of_lookupT_build (seps : List WStr) :
    ∀ (t : TTree) (s : WStr) (v : Nat), s ≠ [] →
      lookupT (seps.foldl (fun t q => TST.put t q q.length) t) s = some v →
      s ∈ seps ∨ lookupT t s = some v := by
  induction seps with
  | nil => intro t s v _ hlook; exact Or.inr hlook
  | cons q rest ih =>
    intro t s v hs hlook
    rcases ih (TST.put t q q.length) s v hs hlook with hmem | hlook2
    · exact Or.inl (List.mem_cons_of_mem q hmem)
    · by_cases hsq : s = q
      · exact Or.inl (hsq ▸ List.mem_cons_self s rest)
      · right
        unfold TST.put at hlook2
        split_ifs at hlook2 with h1
        · exact hlook2
        · have hq : q ≠ [] := by
            intro hcontra
            subst hcontra
            simp at h1
          cases hput : putt q.length t q with
          | none => rw [hput] at hlook2; exact hlook2
          | some t' =>
            rw [hput] at hlook2
            rw [← putt_frame q.length t t' q s hq hs hsq hput]
            exact hlook2

theorem get_build_self (seps : List WStr) (p : WStr) (hp : p ∈ seps)
    (hpne : p ≠ []) : TST.get (buildTree seps) p = some p.length :=
  get_of_lookupT _ p p.length hpne
    (lookupT_build_of_mem seps TTree.nil p hp hpne storesLengths_nil)

theorem get_build_sound (seps : List WStr) (q : WStr) (v : Nat) (hq : q ≠ [])
    (h : TST.get (buildTree seps) q = some v) :
    1 ≤ v ∧ v ≤ q.length ∧ q.take v ∈ seps ∧
      ∀ M, v < M → M ≤ q.length → q.take M ∉ seps := by
  have hst := storesLengths_build seps
  unfold TST.get at h
  rw [if_neg (by simpa using hq)] at h
  cases hg : gett (buildTree seps) q with
  | none => rw [hg] at h; cases h
  | some ov =>
    rw [hg] at h
    have h2 : ov = some v := h
    subst h2
    obtain ⟨d, hd1, hd2, hd3, hd4⟩ := gett_sound (buildTree seps) q (some v) hq hg
    have htne : q.take d ≠ [] := by
      simp only [ne_eq, List.take_eq_nil_iff]
      push_neg
      constructor
      · omega
      · exact hq
    have hvd : v = d := by
      have hlen := hst (q.take d) htne v hd3
      rw [List.length_take] at hlen
      omega
    subst hvd
    have hmem : q.take v ∈ seps := by
      rcases mem_of_lookupT_build seps TTree.nil (q.take v) v htne hd3 with hm | hm
      · exact hm
      · rw [show lookupT TTree.nil (q.take v) = none from rfl] at hm
        cases hm
    refine ⟨hd1, hd2, hmem, ?_⟩
    intro M hM1 hM2 hmem2
    have htne2 : q.take M ≠ [] := by
      simp only [ne_eq, List.take_eq_nil_iff]
      push_neg
      constructor
      · omega
      · exact hq
    have hlook := lookupT_build_of_mem seps TTree.nil (q.take M) hmem2 htne2
      storesLengths_nil
    have hnone := hd4 M hM1 hM2
    rw [show (seps.foldl (fun t q => TST.put t q q.length) TTree.nil) =
      buildTree seps from rfl, hnone] at hlook
    cases hlook

/-! ### Separator scan lemmas -/

theorem content_span (c : Prop) [Decidable c] (p : WStr) :
    (if c then Piece.tok p else Piece.dropped p).content = p := by
  split_ifs <;> rfl

theorem scanPiecesF_tokens (t : TTree) (minc : Nat) :
    ∀ (fuel : Nat) (pending rest : WStr), rest.length ≤ fuel →
      (scanPiecesF t minc fuel pending rest).filterMap Piece.tok? =
        scanAuxF t minc fuel pending rest := by
  intro fuel
  induction fuel with
  | zero =>
    intro pending rest hlen
    have hr : rest = [] := by
      cases rest with
      | nil => rfl
      | cons a b => simp at hlen
    subst hr
    by_cases hp : pending.isEmpty <;>
      simp [scanPiecesF, scanAuxF, hp, Piece.tok?]
  | succ fuel ih =>
    intro pending rest hlen
    cases rest with
    | nil =>
      by_cases hp : pending.isEmpty <;>
        simp [scanPiecesF, scanAuxF, hp, Piece.tok?]
    | cons ch rest' =>
      simp only [List.length_cons] at hlen
      cases hget : TST.get t (ch :: rest') with
      | some wlen =>
        have hrec := ih [] (rest'.drop (wlen - 1))
          (by rw [List.length_drop]; omega)
        simp only [scanPiecesF, scanAuxF, hget]
        split_ifs with hp <;>
          simp [List.filterMap_cons, Piece.tok?, hrec]
      | none =>
        have hrec := ih (pending ++ [ch]) rest' (by omega)
        simp only [scanPiecesF, scanAuxF, hget]
        exact hrec

theorem scanPiecesF_content (t : TTree) (minc : Nat)
    (hpos : ∀ (q : WStr) (wlen : Nat), TST.get t q = some wlen → 1 ≤ wlen) :
    ∀ (fuel : Nat) (pending rest : WStr), rest.length ≤ fuel →
      ((scanPiecesF t minc fuel pending rest).map Piece.content).flatten =
        pending ++ rest := by
  intro fuel
  induction fuel with
  | zero =>
    intro pending rest hlen
    have hr : rest = [] := by
      cases rest with
      | nil => rfl
      | cons a b => simp at hlen
    subst hr
    by_cases hp : pending.isEmpty
    · simp [scanPiecesF, hp, List.isEmpty_iff.mp hp]
    · simp [scanPiecesF, hp, Piece.content]
  | succ fuel ih =>
    intro pending rest hlen
    cases rest with
    | nil =>
      by_cases hp : pending.isEmpty
      · simp [scanPiecesF, hp, List.isEmpty_iff.mp hp]
      · simp [scanPiecesF, hp, Piece.content]
    | cons ch rest' =>
      simp only [List.length_cons] at hlen
      cases hget : TST.get t (ch :: rest') with
      | some wlen =>
        have hw := hpos (ch :: rest') wlen hget
        obtain ⟨w', rfl⟩ : ∃ w', wlen = w' + 1 := ⟨wlen - 1, by omega⟩
        have hrec := ih [] (rest'.drop (w' + 1 - 1))
          (by rw [List.length_drop]; omega)
        simp only [scanPiecesF, hget, List.map_cons, List.flatten_cons,
          content_span, Piece.content, hrec, List.nil_append,
          List.take_succ_cons, Nat.add_sub_cancel]
        simp only [Nat.add_sub_cancel, List.nil_append] at hrec
        split_ifs <;> simp [hrec, List.take_append_drop]
      | none =>
        have hrec := ih (pending ++ [ch]) rest' (by omega)
        simp only [scanPiecesF, hget, hrec]
        simp

theorem scanPiecesF_dropped (t : TTree) (minc : Nat) :
    ∀ (fuel : Nat) (pending rest : WStr), rest.length ≤ fuel →
      ∀ (i : Nat) (s : WStr),
        (scanPiecesF t minc fuel pending rest).get? i = some (Piece.dropped s) →
        s.length ≤ minc ∧
          ∃ sp, (scanPiecesF t minc fuel pending rest).get? (i + 1) =
            some (Piece.sep sp) := by
  intro fuel
  induction fuel with
  | zero =>
    intro pending rest hlen i s hi
    have hr : rest = [] := by
      cases rest with
      | nil => rfl
      | cons a b => simp at hlen
    subst hr
    by_cases hp : pending.isEmpty <;>
      simp only [scanPiecesF, hp, if_true, if_false] at hi
    · simp at hi
    · cases i with
      | zero => simp at hi
      | succ j => simp at hi
  | succ fuel ih =>
    intro pending rest hlen i s hi
    cases rest with
    | nil =>
      by_cases hp : pending.isEmpty <;>
        simp only [scanPiecesF, hp, if_true, if_false] at hi ⊢
      · simp at hi
      · cases i with
        | zero => simp at hi
        | succ j => simp at hi
    | cons ch rest' =>
      simp only [List.length_cons] at hlen
      cases hget : TST.get t (ch :: rest') with
      | some wlen =>
        simp only [scanPiecesF, hget] at hi ⊢
        cases i with
        | zero =>
          simp only [List.get?_cons_zero] at hi
          split_ifs at hi with hp
          · cases hi
          · refine ⟨by cases hi; omega, ?_⟩
            exact ⟨(ch :: rest').take wlen, by simp⟩
        | succ j =>
          cases j with
          | zero => simp at hi
          | succ k =>
            simp only [List.get?_cons_succ] at hi ⊢
            exact ih [] (rest'.drop (wlen - 1))
              (by rw [List.length_drop]; omega) k s hi
      | none =>
        simp only [scanPiecesF, hget] at hi ⊢
        exact ih (pending ++ [ch]) rest' (by omega) i s hi

theorem scanPiecesF_tok_mid (t : TTree) (minc : Nat) :
    ∀ (fuel : Nat) (pending rest : WStr), rest.length ≤ fuel →
      ∀ (i : Nat) (s sp : WStr),
        (scanPiecesF t minc fuel pending rest).get? i = some (Piece.tok s) →
        (scanPiecesF t minc fuel pending rest).get? (i + 1) =
          some (Piece.sep sp) →
        minc < s.length := by
  intro fuel
  induction fuel with
  | zero =>
    intro pending rest hlen i s sp hi hi1
    have hr : rest = [] := by
      cases rest with
      | nil => rfl
      | cons a b => simp at hlen
    subst hr
    by_cases hp : pending.isEmpty <;>
      simp only [scanPiecesF, hp, if_true, if_false] at hi hi1
    · simp at hi
    · cases i with
      | zero => simp at hi1
      | succ j => simp at hi
  | succ fuel ih =>
    intro pending rest hlen i s sp hi hi1
    cases rest with
    | nil =>
      by_cases hp : pending.isEmpty <;>
        simp only [scanPiecesF, hp, if_true, if_false] at hi hi1
      · simp at hi
      · cases i with
        | zero => simp at hi1
        | succ j => simp at hi
    | cons ch rest' =>
      simp only [List.length_cons] at hlen
      cases hget : TST.get t (ch :: rest') with
      | some wlen =>
        simp only [scanPiecesF, hget] at hi hi1
        cases i with
        | zero =>
          simp only [List.get?_cons_zero] at hi
          split_ifs at hi with hp
          · cases hi
            exact hp
          · cases hi
        | succ j =>
          cases j with
          | zero => simp at hi
          | succ k =>
            simp only [List.get?_cons_succ] at hi hi1
            exact ih [] (rest'.drop (wlen - 1))
              (by rw [List.length_drop]; omega) k s sp hi hi1
      | none =>
        simp only [scanPiecesF, hget] at hi hi1
        exact ih (pending ++ [ch]) rest' (by omega) i s sp hi hi1

theorem isDropped_tok (s : WStr) : (Piece.tok s).isDropped = false := rfl

theorem isDropped_sep (s : WStr) : (Piece.sep s).isDropped = false := rfl

theorem isDropped_dropped (s : WStr) : (Piece.dropped s).isDropped = true := rfl

theorem flatten_filter_not_dropped :
    ∀ P : List Piece, (∀ s, Piece.dropped s ∈ P → s = []) →
      ((P.filter fun p => !p.isDropped).map Piece.content).flatten =
        (P.map Piece.content).flatten := by
  intro P
  induction P with
  | nil => intro _; rfl
  | cons p rest ih =>
    intro h
    have hrest := ih fun s hs => h s (List.mem_cons_of_mem p hs)
    cases p with
    | tok s => simp [List.filter_cons, isDropped_tok, hrest]
    | sep s => simp [List.filter_cons, isDropped_sep, hrest]
    | dropped s =>
      have hs : s = [] := h s (List.mem_cons_self _ _)
      subst hs
      simp [List.filter_cons, isDropped_dropped, hrest, Piece.content]

/-! ### Character tokenization agrees with decoding -/

instance {e a : Type} [DecidableEq e] [DecidableEq a] : DecidableEq (Except e a) :=
  fun x y =>
  match x, y with
  | Except.ok v, Except.ok w =>
    if h : v = w then isTrue (by rw [h])
    else isFalse (by intro hc; cases hc; exact h rfl)
  | Except.ok _, Except.error _ => isFalse (by intro hc; cases hc)
  | Except.error _, Except.ok _ => isFalse (by intro hc; cases hc)
  | Except.error v, Except.error w =>
    if h : v = w then isTrue (by rw [h])
    else isFalse (by intro hc; cases hc; exact h rfl)

theorem utf8_cont_iff (b : Nat) : utf8_cont b = true ↔ 0x80 ≤ b ∧ b < 0xC0 := by
  unfold utf8_cont
  simp

theorem decode1_step (b : Nat) (rest : BStr) (c : Nat) (rest2 : BStr)
    (h : decode1 (b :: rest) = some (c, rest2)) :
    utf8_encode_char c = (b :: rest).take (utf8_bytes b) ∧
      rest2 = rest.drop (utf8_bytes b - 1) ∧ rest2.length ≤ rest.length := by
  have hbytes1 : ∀ x : Nat, x < 0x80 → utf8_bytes x = 1 := by
    intro x hx
    unfold utf8_bytes
    rw [if_pos (by omega)]
  have hbytes2 : ∀ x : Nat, 0xC2 ≤ x → x < 0xE0 → utf8_bytes x = 2 := by
    intro x hx1 hx2
    unfold utf8_bytes
    rw [if_neg (by omega), if_pos (by omega)]
  have hbytes3 : ∀ x : Nat, 0xE0 ≤ x → x < 0xF0 → utf8_bytes x = 3 := by
    intro x hx1 hx2
    unfold utf8_bytes
    rw [if_neg (by omega), if_neg (by omega), if_pos (by omega)]
  have hbytes4 : ∀ x : Nat, 0xF0 ≤ x → utf8_bytes x = 4 := by
    intro x hx
    unfold utf8_bytes
    rw [if_neg (by omega), if_neg (by omega), if_neg (by omega)]
  cases rest with
  | nil =>
    simp only [decode1] at h
    split_ifs at h with h1 h2 h3 h4 h5
    · rw [Option.some.injEq, Prod.mk.injEq] at h
      obtain ⟨rfl, rfl⟩ := h
      rw [hbytes1 b h1]
      refine ⟨?_, rfl, le_refl _⟩
      unfold utf8_encode_char
      rw [if_pos h1]
      rfl
  | cons b1 rest' =>
    cases rest' with
    | nil =>
      simp only [decode1] at h
      split_ifs at h with h1 h2 h3 hc h4 h5
      · rw [Option.some.injEq, Prod.mk.injEq] at h
        obtain ⟨rfl, rfl⟩ := h
        rw [hbytes1 b h1]
        refine ⟨?_, rfl, le_refl _⟩
        unfold utf8_encode_char
        rw [if_pos h1]
        rfl
      · rw [Option.some.injEq, Prod.mk.injEq] at h
        obtain ⟨rfl, rfl⟩ := h
        obtain ⟨hc1, hc2⟩ := (utf8_cont_iff b1).mp hc
        rw [hbytes2 b (by omega) h3]
        refine ⟨?_, rfl, by simp⟩
        unfold utf8_encode_char
        rw [if_neg (by omega), if_pos (by omega)]
        simp only [List.take_succ_cons, List.take_zero, List.cons.injEq, and_true]
        exact ⟨by omega, by omega⟩
    | cons b2 rest'' =>
      cases rest'' with
      | nil =>
        simp only [decode1] at h
        split_ifs at h with h1 h2 h3 hc h4 hc2 h5
        · rw [Option.some.injEq, Prod.mk.injEq] at h
          obtain ⟨rfl, rfl⟩ := h
          rw [hbytes1 b h1]
          refine ⟨?_, rfl, by simp⟩
          unfold utf8_encode_char
          rw [if_pos h1]
          rfl
        · rw [Option.some.injEq, Prod.mk.injEq] at h
          obtain ⟨rfl, rfl⟩ := h
          obtain ⟨hg1, hg2⟩ := (utf8_cont_iff b1).mp hc
          rw [hbytes2 b (by omega) h3]
          refine ⟨?_, rfl, by simp⟩
          unfold utf8_encode_char
          rw [if_neg (by omega), if_pos (by omega)]
          simp only [List.take_succ_cons, List.take_zero, List.cons.injEq, and_true]
          exact ⟨by omega, by omega⟩
        · simp only [Bool.and_eq_true] at hc2
          obtain ⟨⟨hca, hcb⟩, hcc⟩ := hc2
          rw [Option.some.injEq, Prod.mk.injEq] at h
          obtain ⟨rfl, rfl⟩ := h
          obtain ⟨hg1, hg2⟩ := (utf8_cont_iff b1).mp hca
          obtain ⟨hg3, hg4⟩ := (utf8_cont_iff b2).mp hcb
          have hok : (b ≠ 0xE0 ∨ 0xA0 ≤ b1) ∧ (b ≠ 0xED ∨ b1 < 0xA0) := by
            unfold utf83_ok at hcc
            simpa using hcc
          have hge : 0x800 ≤ (b - 0xE0) * 0x1000 + (b1 - 0x80) * 0x40 + (b2 - 0x80) := by
            rcases hok.1 with hb0 | hb0
            · omega
            · omega
          rw [hbytes3 b (by omega) h4]
          refine ⟨?_, rfl, by simp⟩
          unfold utf8_encode_char
          rw [if_neg (by omega), if_neg (by omega), if_pos (by omega)]
          simp only [List.take_succ_cons, List.take_zero, List.cons.injEq, and_true]
          refine ⟨by omega, by omega, by omega⟩
      | cons b3 rest3 =>
        simp only [decode1] at h
        split_ifs at h with h1 h2 h3 hc h4 hc2 h5 hc3
        · rw [Option.some.injEq, Prod.mk.injEq] at h
          obtain ⟨rfl, rfl⟩ := h
          rw [hbytes1 b h1]
          refine ⟨?_, rfl, by simp⟩
          unfold utf8_encode_char
          rw [if_pos h1]
          rfl
        · rw [Option.some.injEq, Prod.mk.injEq] at h
          obtain ⟨rfl, rfl⟩ := h
          obtain ⟨hg1, hg2⟩ := (utf8_cont_iff b1).mp hc
          rw [hbytes2 b (by omega) h3]
          refine ⟨?_, rfl, by simp⟩
          unfold utf8_encode_char
          rw [if_neg (by omega), if_pos (by omega)]
          simp only [List.take_succ_cons, List.take_zero, List.cons.injEq, and_true]
          exact ⟨by omega, by omega⟩
        · simp only [Bool.and_eq_true] at hc2
          obtain ⟨⟨hca, hcb⟩, hcc⟩ := hc2
          rw [Option.some.injEq, Prod.mk.injEq] at h
          obtain ⟨rfl, rfl⟩ := h
          obtain ⟨hg1, hg2⟩ := (utf8_cont_iff b1).mp hca
          obtain ⟨hg3, hg4⟩ := (utf8_cont_iff b2).mp hcb
          have hok : (b ≠ 0xE0 ∨ 0xA0 ≤ b1) ∧ (b ≠ 0xED ∨ b1 < 0xA0) := by
            unfold utf83_ok at hcc
            simpa using hcc
          have hge : 0x800 ≤ (b - 0xE0) * 0x1000 + (b1 - 0x80) * 0x40 + (b2 - 0x80) := by
            rcases hok.1 with hb0 | hb0
            · omega
            · omega
          rw [hbytes3 b (by omega) h4]
          refine ⟨?_, rfl, by simp⟩
          unfold utf8_encode_char
          rw [if_neg (by omega), if_neg (by omega), if_pos (by omega)]
          simp only [List.take_succ_cons, List.take_zero, List.cons.injEq, and_true]
          refine ⟨by omega, by omega, by omega⟩
        · simp only [Bool.and_eq_true] at hc3
          obtain ⟨⟨⟨hca, hcb⟩, hcc⟩, hcd⟩ := hc3
          rw [Option.some.injEq, Prod.mk.injEq] at h
          obtain ⟨rfl, rfl⟩ := h
          obtain ⟨hg1, hg2⟩ := (utf8_cont_iff b1).mp hca
          obtain ⟨hg3, hg4⟩ := (utf8_cont_iff b2).mp hcb
          obtain ⟨hg5, hg6⟩ := (utf8_cont_iff b3).mp hcc
          have hok : (b ≠ 0xF0 ∨ 0x90 ≤ b1) ∧ (b ≠ 0xF4 ∨ b1 < 0x90) := by
            unfold utf84_ok at hcd
            simpa using hcd
          have hge : 0x10000 ≤ (b - 0xF0) * 0x40000 + (b1 - 0x80) * 0x1000 +
              (b2 - 0x80) * 0x40 + (b3 - 0x80) := by
            rcases hok.1 with hb0 | hb0
            · omega
            · omega
          rw [hbytes4 b (by omega)]
          refine ⟨?_, rfl, by simp only [List.length_cons]; omega⟩
          unfold utf8_encode_char
          rw [if_neg (by omega), if_neg (by omega), if_neg (by omega)]
          simp only [List.take_succ_cons, List.take_zero, List.cons.injEq, and_true]
          refine ⟨by omega, by omega, by omega, by omega⟩

theorem charTokensF_of_decodeF :
    ∀ (fuel : Nat) (s : BStr) (w : WStr), s.length ≤ fuel →
      utf8_decodeF fuel s = some w → charTokensF fuel s = w.map utf8_encode_char := by
  intro fuel
  induction fuel with
  | zero =>
    intro s w hlen hdec
    have hs : s = [] := by
      cases s with
      | nil => rfl
      | cons a b => simp at hlen
    subst hs
    simp only [utf8_decodeF, Option.some.injEq] at hdec
    subst hdec
    rfl
  | succ fuel ih =>
    intro s w hlen hdec
    cases s with
    | nil =>
      simp only [utf8_decodeF, Option.some.injEq] at hdec
      subst hdec
      rfl
    | cons b rest =>
      simp only [List.length_cons] at hlen
      simp only [utf8_decodeF] at hdec
      cases hd : decode1 (b :: rest) with
      | none => rw [hd] at hdec; cases hdec
      | some pr =>
        obtain ⟨c, rest2⟩ := pr
        rw [hd] at hdec
        obtain ⟨w', hw', rfl⟩ := Option.map_eq_some'.mp hdec
        obtain ⟨henc, hrest2, hlen2⟩ := decode1_step b rest c rest2 hd
        simp only [charTokensF, List.map_cons]
        rw [← henc, ← hrest2, ih rest2 w' (by omega) hw']

theorem charTokens_of_decode (s : BStr) (w : WStr) (hdec : utf8_decode s = some w) :
    charTokens s = w.map utf8_encode_char :=
  charTokensF_of_decodeF s.length s w (le_refl _) hdec

theorem charTokens_length (s : BStr) (w : WStr) (hdec : utf8_decode s = some w) :
    (charTokens s).length = w.length := by
  rw [charTokens_of_decode s w hdec, List.length_map]

/-! ### The two tokenization pipelines -/

theorem foldr_max_ge (l : List Nat) (x : Nat) (hx : x ∈ l) :
    x ≤ l.foldr max 0 := by
  induction l with
  | nil => cases hx
  | cons a rest ih =>
    rcases List.mem_cons.mp hx with rfl | hmem
    · simp [List.foldr_cons, le_max_iff, le_refl]
    · simp only [List.foldr_cons, le_max_iff]
      exact Or.inr (ih hmem)

theorem charPass1_ok (mark : Bool) :
    ∀ (input : List BStr) (maxT : Nat), charPass1 mark input = Except.ok maxT →
      maxT = (input.map fun s =>
          ((utf8_decode s).getD []).length + (if mark then 2 else 0)).foldr max 0 ∧
        ∀ s ∈ input, ∃ w, utf8_decode s = some w := by
  intro input
  induction input with
  | nil =>
    intro maxT h
    simp only [charPass1, Except.ok.injEq] at h
    subst h
    exact ⟨rfl, by simp⟩
  | cons s rest ih =>
    intro maxT h
    simp only [charPass1] at h
    cases hv : utf8_validate s with
    | none => rw [hv] at h; cases h
    | some tokens =>
      rw [hv] at h
      cases hrec : charPass1 mark rest with
      | error e => rw [hrec] at h; cases h
      | ok m =>
        rw [hrec] at h
        have h2 : Except.ok (α := Nat) (max (tokens + (if mark then 2 else 0)) m) =
            Except.ok maxT := h
        obtain ⟨hmax, hvalid⟩ := ih m hrec
        have hw : ∃ w, utf8_decode s = some w := by
          unfold utf8_validate at hv
          cases hd : utf8_decode s with
          | none => rw [hd] at hv; cases hv
          | some w => exact ⟨w, rfl⟩
        refine ⟨?_, ?_⟩
        · obtain ⟨w, hwdec⟩ := hw
          have htok : tokens = w.length := by
            unfold utf8_validate at hv
            rw [hwdec] at hv
            exact (Option.some.inj hv).symm
          simp only [List.map_cons, List.foldr_cons]
          rw [← Except.ok.inj h2, hmax, htok, hwdec]
          rfl
        · intro s2 hs2
          rcases List.mem_cons.mp hs2 with rfl | hmem
          · exact hw
          · exact hvalid s2 hmem

theorem sepPass1_ok (t : TTree) (minc : Nat) (mark : Bool) :
    ∀ (input : List BStr) (maxT : Nat) (rowsW : List (List WStr)),
      sepPass1 t minc mark input = Except.ok (maxT, rowsW) →
      rowsW = input.map (fun s => scanAux t minc [] (from_bytes s)) ∧
        maxT = (input.map fun s =>
          (scanAux t minc [] (from_bytes s)).length +
            (if mark then 2 else 0)).foldr max 0 ∧
        ∀ s ∈ input, from_bytes s ≠ wconv_error := by
  intro input
  induction input with
  | nil =>
    intro maxT rowsW h
    simp only [sepPass1, Except.ok.injEq, Prod.mk.injEq] at h
    obtain ⟨rfl, rfl⟩ := h
    exact ⟨rfl, rfl, by simp⟩
  | cons s rest ih =>
    intro maxT rowsW h
    simp only [sepPass1] at h
    by_cases hconv : from_bytes s = wconv_error
    · rw [if_pos hconv] at h
      cases h
    rw [if_neg hconv] at h
    cases hrec : sepPass1 t minc mark rest with
    | error e => rw [hrec] at h; cases h
    | ok pr =>
      obtain ⟨m, rows⟩ := pr
      rw [hrec] at h
      rw [Except.ok.injEq, Prod.mk.injEq] at h
      obtain ⟨hmax, hrows⟩ := h
      obtain ⟨ihrows, ihmax, ihvalid⟩ := ih m rows hrec
      refine ⟨?_, ?_, ?_⟩
      · rw [← hrows, ihrows]
        rfl
      · simp only [List.map_cons, List.foldr_cons]
        rw [← hmax, ihmax]
      · intro s2 hs2
        rcases List.mem_cons.mp hs2 with rfl | hmem
        · exact hconv
        · exact ihvalid s2 hmem

theorem charRow_length (mark : Bool) (pad : BStr) (maxT : Nat) (s : BStr)
    (h : (charTokens s).length + (if mark then 2 else 0) ≤ maxT) :
    (charRow mark pad maxT s).length = maxT := by
  unfold charRow
  cases mark <;>
    simp only [if_true, if_false, List.append_nil, List.nil_append,
      List.length_append, List.length_replicate, List.length_cons,
      List.length_nil, Bool.false_eq_true] <;>
    simp only [if_true, if_false, Bool.false_eq_true] at h <;>
    omega

theorem sepRow_length (mark : Bool) (pad : BStr) (maxT : Nat) (row : List WStr)
    (h : row.length + (if mark then 2 else 0) ≤ maxT) :
    (sepRow mark pad maxT row).length = maxT := by
  unfold sepRow
  cases mark <;>
    simp only [if_true, if_false, List.append_nil, List.nil_append,
      List.length_append, List.length_replicate, List.length_cons,
      List.length_nil, List.length_map, Bool.false_eq_true] <;>
    simp only [if_true, if_false, Bool.false_eq_true] at h <;>
    omega

theorem charTokenize_ok (mark : Bool) (pad : BStr) (input : List BStr)
    (maxT : Nat) (rows : List (List BStr))
    (h : charTokenize mark pad input = Except.ok (maxT, rows)) :
    charPass1 mark input = Except.ok maxT ∧
      rows = input.map (charRow mark pad maxT) := by
  unfold charTokenize at h
  cases hp : charPass1 mark input with
  | error e => rw [hp] at h; cases h
  | ok m =>
    rw [hp] at h
    rw [Except.ok.injEq, Prod.mk.injEq] at h
    obtain ⟨rfl, rfl⟩ := h
    exact ⟨rfl, rfl⟩

theorem sepTokenize_ok (mark : Bool) (pad : BStr) (minc : Nat)
    (seps input : List BStr) (maxT : Nat) (rows : List (List BStr))
    (h : sepTokenize mark pad minc seps input = Except.ok (maxT, rows)) :
    ∃ t rowsW, buildSepTree seps = Except.ok t ∧
      sepPass1 t minc mark input = Except.ok (maxT, rowsW) ∧
      rows = rowsW.map (sepRow mark pad maxT) := by
  unfold sepTokenize at h
  split at h
  · cases h
  · rename_i t hb
    split at h
    · cases h
    · rename_i m rowsW hp
      rw [Except.ok.injEq, Prod.mk.injEq] at h
      obtain ⟨rfl, rfl⟩ := h
      exact ⟨t, rowsW, hb, hp, rfl⟩

theorem sepTokenize_pass_err (mark : Bool) (pad : BStr) (minc : Nat)
    (seps input : List BStr) (t : TTree) (e : Err)
    (hb : buildSepTree seps = Except.ok t)
    (hp : sepPass1 t minc mark input = Except.error e) :
    sepTokenize mark pad minc seps input = Except.error e := by
  unfold sepTokenize
  split
  · rename_i e2 heq
    rw [heq] at hb
    cases hb
  · rename_i t2 heq
    rw [heq] at hb
    have ht : t2 = t := Except.ok.inj hb
    subst ht
    split
    · rename_i e2 heq2
      rw [heq2] at hp
      rw [Except.error.injEq] at hp
      rw [hp]
    · rename_i m rows heq2
      rw [heq2] at hp
      cases hp

/-! ### The claims -/

/-- **C1**: for every valid input batch and configuration, in both modes,
the output grid's trailing dimension `max_tokens` equals the maximum over
all cells of (that cell's raw token count, plus 2 if `mark` is set), and
every cell's row consists of exactly `max_tokens` entries laid out as
`charRow`/`sepRow`: the start sentinel when `mark` is set, the cell's
tokens in order, `padvalue_` copies filling the remainder, and the end
sentinel when `mark` is set. -/
theorem c1_grid_layout (mark : Bool) (pad : BStr) (minc : Nat)
    (seps input : List BStr) (maxT maxT2 : Nat)
    (rows rows2 : List (List BStr)) :
    (charTokenize mark pad input = Except.ok (maxT, rows) →
      maxT = (input.map fun s =>
          ((utf8_decode s).getD []).length + (if mark then 2 else 0)).foldr max 0 ∧
        rows = input.map (charRow mark pad maxT) ∧
        ∀ row ∈ rows, row.length = maxT) ∧
    (sepTokenize mark pad minc seps input = Except.ok (maxT2, rows2) →
      ∃ t, buildSepTree seps = Except.ok t ∧
        maxT2 = (input.map fun s =>
          (scanAux t minc [] (from_bytes s)).length + (if mark then 2 else 0)).foldr max 0 ∧
        rows2 = input.map
          (fun s => sepRow mark pad maxT2 (scanAux t minc [] (from_bytes s))) ∧
        ∀ row ∈ rows2, row.length = maxT2) := by
  constructor
  · intro h
    obtain ⟨hp, hrows⟩ := charTokenize_ok mark pad input maxT rows h
    obtain ⟨hmax, hvalid⟩ := charPass1_ok mark input maxT hp
    refine ⟨hmax, hrows, ?_⟩
    intro row hrow
    rw [hrows] at hrow
    obtain ⟨s, hs, rfl⟩ := List.mem_map.mp hrow
    obtain ⟨w, hw⟩ := hvalid s hs
    refine charRow_length mark pad maxT s ?_
    rw [charTokens_length s w hw, hmax]
    refine foldr_max_ge _ _ ?_
    refine List.mem_map.mpr ⟨s, hs, ?_⟩
    rw [hw]
    rfl
  · intro h
    obtain ⟨t, rowsW, hb, hp, hrows⟩ := sepTokenize_ok mark pad minc seps input maxT2 rows2 h
    obtain ⟨hrowsW, hmax, _⟩ := sepPass1_ok t minc mark input maxT2 rowsW hp
    refine ⟨t, hb, hmax, ?_, ?_⟩
    · rw [hrows, hrowsW, List.map_map]
      rfl
    · intro row hrow
      rw [hrows, hrowsW] at hrow
      rw [List.map_map] at hrow
      obtain ⟨s, hs, rfl⟩ := List.mem_map.mp hrow
      refine sepRow_length mark pad maxT2 _ ?_
      rw [hmax]
      exact foldr_max_ge _ _ (List.mem_map.mpr ⟨s, hs, rfl⟩)

/-- Witness for C1: a concrete batch in each mode (`mark = true`,
`padvalue_ = "p"`; character mode on ["a", "ab"], separator mode with
separator " " on ["a b"]). -/
theorem c1_grid_layout_witness :
    (4 = (([[97], [97, 98]] : List BStr).map fun s =>
        ((utf8_decode s).getD []).length + (if true then 2 else 0)).foldr max 0 ∧
      ([[[2], [97], [112], [3]], [[2], [97], [98], [3]]] : List (List BStr)) =
        ([[97], [97, 98]] : List BStr).map (charRow true [112] 4) ∧
      ∀ row ∈ ([[[2], [97], [112], [3]], [[2], [97], [98], [3]]] : List (List BStr)),
        row.length = 4) ∧
    (∃ t, buildSepTree [[32]] = Except.ok t ∧
      4 = (([[97, 32, 98]] : List BStr).map fun s =>
        (scanAux t 0 [] (from_bytes s)).length + (if true then 2 else 0)).foldr max 0 ∧
      ([[[2], [97], [98], [3]]] : List (List BStr)) = ([[97, 32, 98]] : List BStr).map
        (fun s => sepRow true [112] 4 (scanAux t 0 [] (from_bytes s))) ∧
      ∀ row ∈ ([[[2], [97], [98], [3]]] : List (List BStr)), row.length = 4) :=
  ⟨(c1_grid_layout true [112] 0 [[32]] [[97], [97, 98]] 4 4
      [[[2], [97], [112], [3]], [[2], [97], [98], [3]]] [[[2], [97], [98], [3]]]).1
      (by decide),
   (c1_grid_layout true [112] 0 [[32]] [[97, 32, 98]] 4 4
      [[[2], [97], [112], [3]], [[2], [97], [98], [3]]] [[[2], [97], [98], [3]]]).2
      (by decide)⟩

theorem scanPieces_tokens (t : TTree) (minc : Nat) (pending rest : WStr) :
    (scanPieces t minc pending rest).filterMap Piece.tok? =
      scanAux t minc pending rest :=
  scanPiecesF_tokens t minc rest.length pending rest (le_refl _)

theorem from_bytes_invalid (s : BStr) (h : utf8_decode s = none) :
    from_bytes s = wconv_error := by
  unfold from_bytes
  rw [h]

theorem charPass1_invalid (mark : Bool) :
    ∀ input : List BStr, (∃ s ∈ input, utf8_validate s = none) →
      ∃ s2, s2 ∈ input ∧ utf8_validate s2 = none ∧
        charPass1 mark input = Except.error (Err.invalidUtf8 s2) := by
  intro input
  induction input with
  | nil =>
    intro h
    obtain ⟨s, hs, _⟩ := h
    cases hs
  | cons s rest ih =>
    intro h
    cases hv : utf8_validate s with
    | none =>
      refine ⟨s, List.mem_cons_self _ _, hv, ?_⟩
      simp only [charPass1, hv]
    | some tokens =>
      obtain ⟨s0, hs0, hs0v⟩ := h
      have hrest : ∃ s2 ∈ rest, utf8_validate s2 = none := by
        rcases List.mem_cons.mp hs0 with rfl | hmem
        · rw [hv] at hs0v; cases hs0v
        · exact ⟨s0, hmem, hs0v⟩
      obtain ⟨s2, hs2, hs2v, herr⟩ := ih hrest
      refine ⟨s2, List.mem_cons_of_mem s hs2, hs2v, ?_⟩
      simp only [charPass1, hv, herr]

theorem sepPass1_invalid (t : TTree) (minc : Nat) (mark : Bool) :
    ∀ input : List BStr, (∃ s ∈ input, from_bytes s = wconv_error) →
      ∃ s2, s2 ∈ input ∧ from_bytes s2 = wconv_error ∧
        sepPass1 t minc mark input = Except.error (Err.invalidUtf8 s2) := by
  intro input
  induction input with
  | nil =>
    intro h
    obtain ⟨s, hs, _⟩ := h
    cases hs
  | cons s rest ih =>
    intro h
    by_cases hv : from_bytes s = wconv_error
    · refine ⟨s, List.mem_cons_self _ _, hv, ?_⟩
      simp only [sepPass1]
      rw [if_pos hv]
    · obtain ⟨s0, hs0, hs0v⟩ := h
      have hrest : ∃ s2 ∈ rest, from_bytes s2 = wconv_error := by
        rcases List.mem_cons.mp hs0 with rfl | hmem
        · exact absurd hs0v hv
        · exact ⟨s0, hmem, hs0v⟩
      obtain ⟨s2, hs2, hs2v, herr⟩ := ih hrest
      refine ⟨s2, List.mem_cons_of_mem s hs2, hs2v, ?_⟩
      simp only [sepPass1]
      rw [if_neg hv, herr]

/-- **C2**: in separator mode, a mid-string pending span (one followed by a
matched separator occurrence) is emitted as a token iff its length is
strictly greater than `mincharnum_`: dropped spans have length at most
`mincharnum_` and only occur mid-string (always followed by a separator
piece), emitted mid-string spans are strictly longer than `mincharnum_`,
and the trailing span left when the scan ends is emitted unconditionally.
The emitted pieces are exactly the scan's output tokens. -/
theorem c2_emit_rule (seps : List WStr) (minc : Nat) (w : WStr) :
    ((scanPieces (buildTree seps) minc [] w).filterMap Piece.tok? =
        scanAux (buildTree seps) minc [] w) ∧
    (∀ (i : Nat) (s : WStr),
      (scanPieces (buildTree seps) minc [] w).get? i = some (Piece.dropped s) →
      s.length ≤ minc ∧
        ∃ sp, (scanPieces (buildTree seps) minc [] w).get? (i + 1) =
          some (Piece.sep sp)) ∧
    (∀ (i : Nat) (s sp : WStr),
      (scanPieces (buildTree seps) minc [] w).get? i = some (Piece.tok s) →
      (scanPieces (buildTree seps) minc [] w).get? (i + 1) = some (Piece.sep sp) →
      minc < s.length) ∧
    (∀ pending : WStr, pending ≠ [] →
      scanAux (buildTree seps) minc pending [] = [pending]) := by
  refine ⟨scanPieces_tokens _ minc [] w, ?_, ?_, ?_⟩
  · intro i s hi
    exact scanPiecesF_dropped (buildTree seps) minc w.length [] w (le_refl _) i s hi
  · intro i s sp hi hi1
    exact scanPiecesF_tok_mid (buildTree seps) minc w.length [] w (le_refl _) i s sp hi hi1
  · intro pending hpending
    have hbase : scanAux (buildTree seps) minc pending [] =
        if pending.isEmpty then [] else [pending] := rfl
    rw [hbase, if_neg (by simpa using hpending)]

/-- Witness for C2: separator "b", `mincharnum_ = 1`, cell "abcdb": the
length-1 span "a" is dropped (and is mid-string), the length-2 span "cd" is
emitted, and a nonempty trailing span is always emitted. -/
theorem c2_emit_rule_witness :
    ((scanPieces (buildTree [[98]]) 1 [] [97, 98, 99, 100, 98]).filterMap Piece.tok? =
        scanAux (buildTree [[98]]) 1 [] [97, 98, 99, 100, 98]) ∧
    (([97] : WStr).length ≤ 1 ∧
      ∃ sp, (scanPieces (buildTree [[98]]) 1 [] [97, 98, 99, 100, 98]).get? 1 =
        some (Piece.sep sp)) ∧
    (1 < ([99, 100] : WStr).length) ∧
    scanAux (buildTree [[98]]) 1 [97] [] = [[97]] :=
  ⟨(c2_emit_rule [[98]] 1 [97, 98, 99, 100, 98]).1,
   (c2_emit_rule [[98]] 1 [97, 98, 99, 100, 98]).2.1 0 [97] (by decide),
   (c2_emit_rule [[98]] 1 [97, 98, 99, 100, 98]).2.2.1 2 [99, 100] [98]
     (by decide) (by decide),
   (c2_emit_rule [[98]] 1 [97, 98, 99, 100, 98]).2.2.2 [97] (by decide)⟩

/-- **C3 counterexample**: the claim says a mid-string token of length
greater than or equal to `minTokenLen` is kept, but the code keeps a span
only when its length is strictly greater than `mincharnum_` (line 288).
With separator "b", `mincharnum_ = 1` and cell "ab", the mid-string span
"a" has length 1 = `mincharnum_` yet is dropped: the cell yields no tokens
at all. -/
theorem c3_counterexample :
    scanAux (buildTree [[98]]) 1 [] [97, 98] = [] ∧
      ¬([97] : WStr) ∈ scanAux (buildTree [[98]]) 1 [] [97, 98] ∧
      (scanPieces (buildTree [[98]]) 1 [] [97, 98]).get? 0 =
        some (Piece.dropped [97]) ∧
      1 ≤ ([97] : WStr).length :=
  ⟨by decide, by decide, by decide, by decide⟩

/-- **C3 amended**: exactly the mid-string spans of length at most
`mincharnum_` are dropped (equivalently, a mid-string span is kept iff its
length strictly exceeds `mincharnum_`); the kept pieces are exactly the
scan's output tokens. -/
theorem c3_minlen_threshold (seps : List WStr) (minc : Nat) (w : WStr) :
    ((scanPieces (buildTree seps) minc [] w).filterMap Piece.tok? =
        scanAux (buildTree seps) minc [] w) ∧
    (∀ (i : Nat) (s : WStr),
      (scanPieces (buildTree seps) minc [] w).get? i = some (Piece.dropped s) →
      s.length ≤ minc) ∧
    (∀ (i : Nat) (s sp : WStr),
      (scanPieces (buildTree seps) minc [] w).get? i = some (Piece.tok s) →
      (scanPieces (buildTree seps) minc [] w).get? (i + 1) = some (Piece.sep sp) →
      minc < s.length) := by
  refine ⟨scanPieces_tokens _ minc [] w, ?_, ?_⟩
  · intro i s hi
    exact (scanPiecesF_dropped (buildTree seps) minc w.length [] w (le_refl _) i s hi).1
  · intro i s sp hi hi1
    exact scanPiecesF_tok_mid (buildTree seps) minc w.length [] w (le_refl _) i s sp hi hi1

/-- Witness for the amended C3: separator "d", `mincharnum_ = 2`, cell
"adbced": the dropped span "a" has length ≤ 2 and the kept mid-string span
"bce" has length > 2. -/
theorem c3_minlen_threshold_witness :
    ((scanPieces (buildTree [[100]]) 2 [] [97, 100, 98, 99, 101, 100]).filterMap
        Piece.tok? = scanAux (buildTree [[100]]) 2 [] [97, 100, 98, 99, 101, 100]) ∧
    (([97] : WStr).length ≤ 2) ∧
    (2 < ([98, 99, 101] : WStr).length) :=
  ⟨(c3_minlen_threshold [[100]] 2 [97, 100, 98, 99, 101, 100]).1,
   (c3_minlen_threshold [[100]] 2 [97, 100, 98, 99, 101, 100]).2.1 0 [97] (by decide),
   (c3_minlen_threshold [[100]] 2 [97, 100, 98, 99, 101, 100]).2.2 2 [98, 99, 101]
     [100] (by decide) (by decide)⟩

/-- **C4 counterexample**: with the separators "x" and "xy" registered (in
that order) and query "xz", a registered separator ("x") begins at offset 0,
but the lookup reports no match at all — the matcher does not always find
the longest registered separator starting at a position. -/
theorem c4_counterexample :
    TST.get (buildTree [[120], [120, 121]]) [120, 122] = none ∧
      ([120] : WStr) ∈ [[120], [120, 121]] ∧
      ([120, 122] : WStr).take 1 = [120] :=
  ⟨by decide, by decide, by decide⟩

/-- **C4 amended**: the lookup is sound and maximal when it reports a
match: if `get` returns length `v` at a position, then the next `v` code
units are a registered separator, and no strictly longer registered
separator both starts there and fits in the remaining query.  Moreover for
every registered pattern `p`, looking up a query that is exactly `p`
succeeds with length `p.length`.  However (see the counterexample) the
lookup may miss entirely even when a registered separator starts at the
position: the greedy middle descent does not backtrack. -/
theorem c4_matcher_sound (seps : List WStr) :
    (∀ p ∈ seps, p ≠ [] → TST.get (buildTree seps) p = some p.length) ∧
    (∀ (q : WStr) (v : Nat), q ≠ [] → TST.get (buildTree seps) q = some v →
      1 ≤ v ∧ v ≤ q.length ∧ q.take v ∈ seps ∧
        ∀ M, v < M → M ≤ q.length → q.take M ∉ seps) :=
  ⟨fun p hp hpne => get_build_self seps p hp hpne,
   fun q v hq h => get_build_sound seps q v hq h⟩

/-- Witness for the amended C4: the single separator "a"; the exact query
"a" matches with length 1, the query "ab" matches its first unit, and no
longer registered separator fits. -/
theorem c4_matcher_sound_witness :
    TST.get (buildTree [[97]]) [97] = some 1 ∧
      (1 ≤ 1 ∧ 1 ≤ ([97, 98] : WStr).length ∧ ([97, 98] : WStr).take 1 ∈ [[97]] ∧
        ∀ M, 1 < M → M ≤ ([97, 98] : WStr).length →
          ([97, 98] : WStr).take M ∉ ([[97]] : List WStr)) ∧
      ([97, 98] : WStr).take 2 ∉ ([[97]] : List WStr) :=
  ⟨(c4_matcher_sound [[97]]).1 [97] (by decide) (by decide),
   (c4_matcher_sound [[97]]).2 [97, 98] 1 (by decide) (by decide),
   ((c4_matcher_sound [[97]]).2 [97, 98] 1 (by decide) (by decide)).2.2.2 2
     (by decide) (by decide)⟩

/-- **C5**: with the patterns "a" and "ab" inserted in that order, the
longest-match lookup on query "ac" reports no match at all — it descends
the middle child past the terminal node for "a", fails on 'c', and does not
fall back to the shorter complete match "a", which the matcher does find
when the query is "a" itself. -/
theorem c5_nonbacktracking_quirk :
    TST.get (buildTree [[97], [97, 98]]) [97, 99] = none ∧
      TST.get (buildTree [[97], [97, 98]]) [97] = some 1 ∧
      TST.get (buildTree [[97], [97, 98]]) [97, 98] = some 2 :=
  ⟨by decide, by decide, by decide⟩

/-- **C6**: separator-mode round trip.  The pieces of the instrumented scan
(emitted tokens, dropped spans, matched separator occurrences, in original
left-to-right order) concatenate to exactly the original decoded cell
string; the emitted tokens are exactly the scan's output; and with
`mincharnum_ = 0` the reconstruction from kept pieces alone (tokens and
separators, dropped spans removed) is already exact. -/
theorem c6_roundtrip (seps : List WStr) (minc : Nat) (w : WStr) :
    ((scanPieces (buildTree seps) minc [] w).map Piece.content).flatten = w ∧
    ((scanPieces (buildTree seps) minc [] w).filterMap Piece.tok? =
        scanAux (buildTree seps) minc [] w) ∧
    (((scanPieces (buildTree seps) 0 [] w).filter fun p => !p.isDropped).map
        Piece.content).flatten = w := by
  refine ⟨?_, scanPieces_tokens _ minc [] w, ?_⟩
  · exact scanPiecesF_content (buildTree seps) minc (get_pos_build seps)
      w.length [] w (le_refl _)
  · rw [flatten_filter_not_dropped]
    · exact scanPiecesF_content (buildTree seps) 0 (get_pos_build seps)
        w.length [] w (le_refl _)
    · intro s hs
      obtain ⟨n, hn⟩ := List.mem_iff_get?.mp hs
      have hlen := (scanPiecesF_dropped (buildTree seps) 0 w.length [] w
        (le_refl _) n s hn).1
      exact List.eq_nil_of_length_eq_zero (by omega)

/-- **C7**: in character mode with `mark_ = false`, for every valid-UTF-8
input cell, the output row is one token per Unicode code point of the cell
string, in left-to-right order, each token being exactly that code point's
own UTF-8 encoding, followed by `padvalue_` copies filling the row to
`max_tokens`. -/
theorem c7_char_mode_rows (pad : BStr) (input : List BStr) (maxT : Nat)
    (rows : List (List BStr))
    (h : charTokenize false pad input = Except.ok (maxT, rows)) :
    ∀ (i : Nat) (s : BStr), input.get? i = some s →
      ∃ w, utf8_decode s = some w ∧ w.length ≤ maxT ∧
        rows.get? i = some (w.map utf8_encode_char ++
          List.replicate (maxT - w.length) pad) := by
  intro i s hi
  obtain ⟨hp, hrows⟩ := charTokenize_ok false pad input maxT rows h
  obtain ⟨hmax, hvalid⟩ := charPass1_ok false input maxT hp
  have hsmem : s ∈ input := List.get?_mem hi
  obtain ⟨w, hw⟩ := hvalid s hsmem
  have hwlen : w.length ≤ maxT := by
    rw [hmax]
    have hge := foldr_max_ge _ _ (List.mem_map_of_mem
      (fun s => ((utf8_decode s).getD []).length + (if false then 2 else 0)) hsmem)
    simp only [hw] at hge
    simpa using hge
  refine ⟨w, hw, hwlen, ?_⟩
  rw [hrows, List.get?_map, hi]
  simp only [Option.map_some']
  unfold charRow
  rw [charTokens_of_decode s w hw]
  simp [List.length_map]

/-- Witness for C7: character mode on ["a", "ab"] with pad "p": row 0 is
the code point token "a" followed by one pad copy. -/
theorem c7_char_mode_rows_witness :
    ∃ w, utf8_decode [97] = some w ∧ w.length ≤ 2 ∧
      ([[[97], [112]], [[97], [98]]] : List (List BStr)).get? 0 =
        some (w.map utf8_encode_char ++ List.replicate (2 - w.length) [112]) :=
  c7_char_mode_rows [112] [[97], [97, 98]] 2 [[[97], [112]], [[97], [98]]]
    (by decide) 0 [97] (by decide)

/-- **C8 counterexample**: the claim requires the `InvalidUtf8` error's
message to include the offending (invalid) string, but in separator mode a
valid earlier cell whose content is exactly "Conversion Error" is reported
instead of the actual invalid cell: on the batch ["Conversion Error",
0xFF] the reported string is the valid first cell, not the invalid second
one. -/
theorem c8_counterexample :
    compute false [] 0 [[32]] [2] [conv_error, [255]] =
        Except.error (Err.invalidUtf8 conv_error) ∧
      utf8_decode [255] = none ∧
      utf8_decode conv_error = some wconv_error ∧
      conv_error ≠ [255] :=
  ⟨by decide, by decide, by decide, by decide⟩

/-- **C8 amended**: if any cell of the batch is not valid UTF-8 (and the
configuration itself is valid), `compute` returns an `InvalidUtf8`-kind
error and no output is produced; the error names the first cell failing
the mode's decode check.  In character mode that cell is itself invalid
UTF-8; in separator mode it is the first cell whose decoding yields the
`wconv_error` sentinel, which is the offending invalid cell except when an
earlier valid cell is literally "Conversion Error". -/
theorem c8_invalid_input_error (mark : Bool) (pad : BStr) (minc : Nat)
    (seps : List BStr) (dims : List Int) (input : List BStr) (t : TTree)
    (hdims : checkDims dims = true) :
    ((∃ s ∈ input, utf8_validate s = none) → minc ≤ 1 →
      ∃ s2, s2 ∈ input ∧ utf8_validate s2 = none ∧
        compute mark pad minc [[]] dims input =
          Except.error (Err.invalidUtf8 s2)) ∧
    ((∃ s ∈ input, utf8_decode s = none) → seps ≠ [] →
      buildSepTree seps = Except.ok t →
      ∃ s2, s2 ∈ input ∧ from_bytes s2 = wconv_error ∧
        compute mark pad minc seps dims input =
          Except.error (Err.invalidUtf8 s2)) := by
  constructor
  · intro hinv hminc
    obtain ⟨s2, hs2, hs2v, herr⟩ := charPass1_invalid mark input hinv
    refine ⟨s2, hs2, hs2v, ?_⟩
    unfold compute
    rw [if_neg (by simp), if_neg (by intro hcontra; omega),
      if_neg (by simp [hdims]), if_pos rfl]
    unfold charTokenize
    rw [herr]
  · intro hinv hseps hbuild
    have hsingle : seps ≠ [[]] := by
      intro hcontra
      subst hcontra
      rw [show buildSepTree [[]] = Except.error Err.emptySeparator from rfl]
        at hbuild
      cases hbuild
    obtain ⟨s0, hs0, hs0v⟩ := hinv
    obtain ⟨s2, hs2, hs2v, herr⟩ := sepPass1_invalid t minc mark input
      ⟨s0, hs0, from_bytes_invalid s0 hs0v⟩
    refine ⟨s2, hs2, hs2v, ?_⟩
    unfold compute
    rw [if_neg (by simpa using hseps),
      if_neg (by intro hcontra; exact hsingle hcontra.1),
      if_neg (by simp [hdims]), if_neg hsingle]
    rw [sepTokenize_pass_err mark pad minc seps input t _ hbuild herr]

/-- Witness for the amended C8: in character mode the invalid cell 0xFF
itself is reported; in separator mode (separator " ") likewise when no
sentinel-valued cell precedes it. -/
theorem c8_invalid_input_error_witness :
    (∃ s2, s2 ∈ ([[97], [255]] : List BStr) ∧ utf8_validate s2 = none ∧
      compute false [] 0 [[]] [2] [[97], [255]] =
        Except.error (Err.invalidUtf8 s2)) ∧
    (∃ s2, s2 ∈ ([[97], [255]] : List BStr) ∧ from_bytes s2 = wconv_error ∧
      compute false [] 0 [[32]] [2] [[97], [255]] =
        Except.error (Err.invalidUtf8 s2)) :=
  ⟨(c8_invalid_input_error false [] 0 [[32]] [2] [[97], [255]] TTree.nil
      (by decide)).1 ⟨[255], by decide, by decide⟩ (by decide),
   (c8_invalid_input_error false [] 0 [[32]] [2] [[97], [255]]
      (TTree.node 32 (some 1) TTree.nil TTree.nil TTree.nil) (by decide)).2
      ⟨[255], by decide, by decide⟩ (by decide) (by decide)⟩

/-- **C9**: in separator mode, the perfectly valid UTF-8 input cell whose
content is exactly "Conversion Error" is wrongly rejected as invalid
UTF-8, because decoding failure is detected by comparing the decoded
result against the `wconv_error` sentinel (lines 277, 255) rather than by
an explicit success flag; a separator equal to that string is likewise
rejected. -/
theorem c9_sentinel_false_positive :
    utf8_decode conv_error = some wconv_error ∧
      compute false [] 0 [[32]] [1] [conv_error] =
        Except.error (Err.invalidUtf8 conv_error) ∧
      buildSepTree [conv_error] = Except.error (Err.invalidSepUtf8 conv_error) :=
  ⟨by decide, by decide, by decide⟩

/-- **C10**: when `mark_` is set, in both modes, the first entry of every
cell row is the one-byte string 0x02 (STX) and the last entry is the
one-byte string 0x03 (ETX); the values are the fixed constants
`start_text`/`end_text` of lines 29-30, not configurable. -/
theorem c10_sentinel_values (pad : BStr) (minc : Nat) (seps input : List BStr)
    (maxT maxT2 : Nat) (rows rows2 : List (List BStr)) :
    (charTokenize true pad input = Except.ok (maxT, rows) →
      ∀ row ∈ rows, row.head? = some [2] ∧ row.getLast? = some [3]) ∧
    (sepTokenize true pad minc seps input = Except.ok (maxT2, rows2) →
      ∀ row ∈ rows2, row.head? = some [2] ∧ row.getLast? = some [3]) := by
  have hlast : ∀ (l1 l2 l3 : List BStr) (a : BStr),
      (l1 ++ l2 ++ l3 ++ [a]).getLast? = some a := by
    intro l1 l2 l3 a
    rw [show l1 ++ l2 ++ l3 ++ [a] = (l1 ++ l2 ++ l3) ++ [a] by
      simp [List.append_assoc]]
    exact List.getLast?_concat _
  have hchar : ∀ (m : Nat) (s : BStr),
      (charRow true pad m s).head? = some [2] ∧
        (charRow true pad m s).getLast? = some [3] := by
    intro m s
    have h1 : charRow true pad m s = [[start_text]] ++ charTokens s ++
        List.replicate (m - 2 - (charTokens s).length) pad ++ [[end_text]] := rfl
    rw [h1]
    exact ⟨rfl, hlast _ _ _ _⟩
  have hsep : ∀ (m : Nat) (r : List WStr),
      (sepRow true pad m r).head? = some [2] ∧
        (sepRow true pad m r).getLast? = some [3] := by
    intro m r
    have h1 : sepRow true pad m r = [[start_text]] ++ r.map to_bytes ++
        List.replicate (m - 2 - r.length) pad ++ [[end_text]] := rfl
    rw [h1]
    exact ⟨rfl, hlast _ _ _ _⟩
  constructor
  · intro h row hrow
    obtain ⟨_, hrows⟩ := charTokenize_ok true pad input maxT rows h
    rw [hrows] at hrow
    obtain ⟨s, _, rfl⟩ := List.mem_map.mp hrow
    exact hchar maxT s
  · intro h row hrow
    obtain ⟨t, rowsW, _, _, hrows⟩ := sepTokenize_ok true pad minc seps input
      maxT2 rows2 h
    rw [hrows] at hrow
    obtain ⟨r, _, rfl⟩ := List.mem_map.mp hrow
    exact hsep maxT2 r

/-- Witness for C10: both modes with `mark_` set on concrete one-cell
batches. -/
theorem c10_sentinel_values_witness :
    (∀ row ∈ ([[[2], [97], [3]]] : List (List BStr)),
      row.head? = some [2] ∧ row.getLast? = some [3]) ∧
    (∀ row ∈ ([[[2], [97], [98], [3]]] : List (List BStr)),
      row.head? = some [2] ∧ row.getLast? = some [3]) :=
  ⟨(c10_sentinel_values [112] 0 [[32]] [[97]] 3 4 [[[2], [97], [3]]]
      [[[2], [97], [98], [3]]]).1 (by decide),
   (c10_sentinel_values [112] 0 [[32]] [[97, 32, 98]] 3 4 [[[2], [97], [3]]]
      [[[2], [97], [98], [3]]]).2 (by decide)⟩
